import Mathlib

/-!
Verification development for DirDiff (`dirdiff.py`).

The program compares two directory trees.  Its pipeline is:

* `run_xxd_diff` shells out to the external tools `xxd`, `diff` and
  `diffstat` and returns diffstat's (stripped) textual summary, or the
  string `Error comparing files` when `xxd` fails (unreadable file);
* `parse_diffstat` extracts insertion/deletion counts from that summary
  by string splitting;
* `build_directory_tree` walks the sorted union of relative paths from
  both roots, classifies each file (added / removed / changed /
  unchanged) and builds a nested dictionary tree, collecting a flat
  list of changed-file records;
* `identify_significant_changes` computes mean and sample standard
  deviation of the totals and selects the records strictly above
  `mean + multiplier * stdev`, sorted by total descending (stable).

Python strings are embedded as `List Char`, Python ints as `Int`,
file bytes as `Nat`.  The external tools (`xxd`, `diff`, `diffstat`)
are not part of the repository; they are modelled from the spec and
from their well-known documented output formats, as noted on the
corresponding definitions.
-/

/-- Python strings are modelled as lists of characters (a Python `str`
is a sequence of code points, and all operations used by the program
are sequence operations). -/
abbrev PyStr := List Char

/-- File bytes are modelled as natural numbers. -/
abbrev Byte := Nat

/-! ### Python string primitives used by `parse_diffstat` -/

/-- Auxiliary scanner for `pySplit`: walks the string left to right,
splitting at each non-overlapping occurrence of the separator
`s0 :: sr`.  `acc` holds the (reversed) characters of the current
piece.  The fuel argument only serves to make the recursion
structural; `pySplit` supplies enough fuel for it never to run out. -/
def pySplitAux (s0 : Char) (sr : PyStr) : Nat → PyStr → PyStr → List PyStr
  | _, [], acc => [acc.reverse]
  | 0, s, acc => [acc.reverse ++ s]
  | fuel + 1, c :: rest, acc =>
    if c = s0 ∧ sr.isPrefixOf rest then
      acc.reverse :: pySplitAux s0 sr fuel (rest.drop sr.length) []
    else
      pySplitAux s0 sr fuel rest (c :: acc)

/-- Python `s.split(sep)` for a non-empty separator: split on each
non-overlapping occurrence of `sep`, scanning left to right; the result
always has at least one element.  (Python raises on an empty separator;
the program only splits on `"insertion"`, `"deletion"`, `","` and
`os.sep`, all non-empty.) -/
def pySplit (s sep : PyStr) : List PyStr :=
  match sep with
  | [] => [s]
  | s0 :: sr => pySplitAux s0 sr s.length s []

/-- Python `s.strip()`: remove leading and trailing whitespace. -/
def pyStrip (s : PyStr) : PyStr :=
  (((s.dropWhile Char.isWhitespace).reverse).dropWhile Char.isWhitespace).reverse

/-- Value of a decimal digit character. -/
def digitVal (c : Char) : Nat := c.toNat - 48

/-- Natural number denoted by a string of decimal digits. -/
def digitsToNat (s : PyStr) : Nat := s.foldl (fun a c => a * 10 + digitVal c) 0

/-- Python `int(s)`: strips whitespace, accepts an optional sign
followed by at least one decimal digit, and raises `ValueError`
otherwise (modelled by `none`). -/
def pyInt (s : PyStr) : Option Int :=
  match pyStrip s with
  | [] => none
  | c :: ds =>
    if c = '-' then
      if ds ≠ [] ∧ ds.all Char.isDigit then some (-(digitsToNat ds : Int)) else none
    else if c = '+' then
      if ds ≠ [] ∧ ds.all Char.isDigit then some ((digitsToNat ds : Int)) else none
    else
      if (c :: ds).all Char.isDigit then some ((digitsToNat (c :: ds) : Int)) else none

/-- Python `pat in s`: substring containment. -/
def strContains (s pat : PyStr) : Bool := decide (pat <:+: s)

/-- Python `lst[-1]` for the (never empty) result of a split. -/
def pyLast (l : List PyStr) : PyStr := l.getLastD []

/-- Python `lst[-2]`: `none` models the `IndexError` raised when the
list has fewer than two elements. -/
def pyAt2 (l : List PyStr) : Option PyStr :=
  if h : 2 ≤ l.length then some (l.get ⟨l.length - 2, by omega⟩) else none

/-! ### String constants appearing in the program and in diffstat output -/

def wInsertion : PyStr := "insertion".data
def wDeletion : PyStr := "deletion".data
def wZeroFiles : PyStr := "0 files changed".data
def wComma : PyStr := ",".data
def wError : PyStr := "Error comparing files".data
def wHdr : PyStr := "unknown | ".data
def wSpace : PyStr := " ".data
def wFileChanged : PyStr := "\n 1 file changed".data
def wParenPlus : PyStr := "(+)".data
def wSParenPlus : PyStr := "s(+)".data
def wParenMinus : PyStr := "(-)".data
def wSParenMinus : PyStr := "s(-)".data

/-! ### Decimal rendering (used by the modelled diffstat output) -/

/-- Decimal digit character for a value below ten. -/
def digitChar : Nat → Char
  | 0 => '0' | 1 => '1' | 2 => '2' | 3 => '3' | 4 => '4'
  | 5 => '5' | 6 => '6' | 7 => '7' | 8 => '8' | _ => '9'

/-- Fuelled most-significant-digit-first decimal rendering. -/
def reprNatAux : Nat → Nat → PyStr
  | 0, _ => []
  | f + 1, n =>
    if n < 10 then [digitChar n]
    else reprNatAux f (n / 10) ++ [digitChar (n % 10)]

/-- Decimal rendering of a natural number (as printed by diffstat). -/
def reprNat (n : Nat) : PyStr := reprNatAux (n + 1) n

/-! ### The modelled external pipeline: xxd, diff, diffstat -/

/-- Modelled from the spec: a line of the external `xxd` hex dump.
Each output line of `xxd` is a pure, injective rendering of the pair
(chunk offset, chunk bytes): the offset in hex, the bytes in hex and a
printable-character column (spec §4.1: the exact encoding is not
load-bearing, only its determinism and per-chunk injectivity).  Two
lines are equal as strings iff offset and chunk agree, so a line is
modelled as that pair directly. -/
structure XxdLine where
  offset : Nat
  chunk : List Byte
deriving DecidableEq

/-- Fuelled chunking of a byte list into groups of sixteen (the fuel
only makes the recursion structural; callers supply the length). -/
def chunksOf16Aux : Nat → List Byte → List (List Byte)
  | _, [] => []
  | 0, bs => [bs]
  | f + 1, bs => bs.take 16 :: chunksOf16Aux f (bs.drop 16)

/-- Chunk a byte list into groups of sixteen bytes; the last chunk may
be shorter. -/
def chunksOf16 (bs : List Byte) : List (List Byte) := chunksOf16Aux bs.length bs

/-- Modelled from the spec: the external `xxd` dump of a byte content,
one line per 16-byte chunk with its byte offset.  `xxd` of an empty
file produces no lines. -/
def xxdLines (bs : List Byte) : List XxdLine :=
  (chunksOf16 bs).enum.map (fun p => ⟨16 * p.1, p.2⟩)

/-- Fuelled longest-common-subsequence length (the fuel only makes the
recursion structural; `lcsLen` supplies enough). -/
def lcsAux : Nat → List XxdLine → List XxdLine → Nat
  | _, [], _ => 0
  | _, _, [] => 0
  | 0, _, _ => 0
  | f + 1, a :: as, b :: bs =>
    if a = b then lcsAux f as bs + 1
    else max (lcsAux f (a :: as) bs) (lcsAux f as (b :: bs))

/-- Length of a longest common subsequence of two line sequences. -/
def lcsLen (A B : List XxdLine) : Nat := lcsAux (A.length + B.length) A B

/-- Modelled from the spec: the external `diff` computes a minimal
line edit script; the number of inserted lines is `|B| - lcs` and the
number of deleted lines is `|A| - lcs` (the classic LCS
characterisation of a minimal insert/delete script). -/
def diffCounts (A B : List XxdLine) : Nat × Nat :=
  (B.length - lcsLen A B, A.length - lcsLen A B)

/-- Modelled from the spec: the external `diffstat` summary for a diff
with `ins` inserted and `del` deleted lines, after the program's
`.strip()`.  With no changes diffstat prints `0 files changed`;
otherwise a histogram header line (diffstat prints `unknown` as the
file name for a bare `diff a b` stream, which has no file headers)
followed by the summary line, with singular/plural words and with the
zero category omitted.  The histogram is modelled unscaled; only the
summary line is load-bearing for `parse_diffstat`. -/
def insTail (ins : Nat) : PyStr := if ins = 1 then wParenPlus else wSParenPlus

def delTail (del : Nat) : PyStr := if del = 1 then wParenMinus else wSParenMinus

def diffstatOutput (ins del : Nat) : PyStr :=
  if ins = 0 ∧ del = 0 then wZeroFiles
  else
    wHdr ++ reprNat (ins + del) ++ wSpace
      ++ List.replicate ins '+' ++ List.replicate del '-' ++ wFileChanged
      ++ (if 0 < ins then
            wComma ++ wSpace ++ reprNat ins ++ wSpace ++ wInsertion ++ insTail ins
          else [])
      ++ (if 0 < del then
            wComma ++ wSpace ++ reprNat del ++ wSpace ++ wDeletion ++ delTail del
          else [])

/-- The program's `run_xxd_diff(file1, file2)`: pipes the `xxd` dumps
of the two files through `diff | diffstat` and returns the stripped
summary; when a file cannot be read, `xxd` exits non-zero
(`CalledProcessError`) and the function returns
`Error comparing files`.  A file's readable content is modelled as
`Option (List Byte)`, `none` meaning the read fails. -/
def run_xxd_diff (c1 c2 : Option (List Byte)) : PyStr :=
  match c1, c2 with
  | some b1, some b2 =>
    diffstatOutput (diffCounts (xxdLines b1) (xxdLines b2)).1
      (diffCounts (xxdLines b1) (xxdLines b2)).2
  | _, _ => wError

/-- The program's `parse_diffstat(diffstat_output)`, line for line:
the early return on `0 files changed`; the insertion count from
`split("insertion")[0].split(",")[-1]`; the deletion count from
`split("deletion")[0]`, indexed `[-2]` when the word `insertion`
occurs in it and `[-1]` otherwise.  A failed `int()` (`ValueError`) or
a failed `[-2]` (`IndexError`) leaves the corresponding count at 0. -/
def parse_diffstat (out : PyStr) : Int × Int :=
  if strContains out wZeroFiles then (0, 0)
  else
    let insertions : Int :=
      if strContains out wInsertion then
        match pyInt (pyStrip (pyLast (pySplit ((pySplit out wInsertion).headD []) wComma))) with
        | some n => n
        | none => 0
      else 0
    let deletions : Int :=
      if strContains out wDeletion then
        let delPart := (pySplit out wDeletion).headD []
        let piece : Option PyStr :=
          if strContains delPart wInsertion then pyAt2 (pySplit delPart wComma)
          else some (pyLast (pySplit delPart wComma))
        match piece with
        | none => 0
        | some p =>
          match pyInt (pyStrip p) with
          | some n => n
          | none => 0
      else 0
    (insertions, deletions)

/-- The composite line-diff engine of the program, as applied to two
projected line sequences: external `diff`/`diffstat` (modelled)
followed by the program's `parse_diffstat`. -/
def lineDiff (A B : List XxdLine) : Int × Int :=
  parse_diffstat (diffstatOutput (diffCounts A B).1 (diffCounts A B).2)

def statusAdded : String := "added"
def statusRemoved : String := "removed"
def statusChanged : String := "changed"
def statusUnchanged : String := "unchanged"

/-- The common-path branch of `build_directory_tree` (lines 122-141 of
`dirdiff.py`): run the xxd diff, parse it, and classify the pair as
`changed` with the parsed counts when either count is positive, else
`unchanged` with magnitude `(0, 0)`. -/
def compareFile (c1 c2 : Option (List Byte)) : String × (Int × Int) :=
  let pd := parse_diffstat (run_xxd_diff c1 c2)
  if 0 < pd.1 ∨ 0 < pd.2 then (statusChanged, pd) else (statusUnchanged, (0, 0))

/-! ### Sorting (the model of Python `sorted` and `list.sort`) -/

/-- Stable insertion into a sorted list: the new element goes in front
of the first element `x` with `le a x`. -/
def insSorted {α : Type} (le : α → α → Bool) (a : α) : List α → List α
  | [] => [a]
  | x :: xs => if le a x then a :: x :: xs else x :: insSorted le a xs

/-- Insertion sort.  Python's `sorted`/`list.sort` are stable sorts,
and all stable sorts of a list under a total preorder produce the same
output, so stable insertion sort is used as their model. -/
def insertionSort {α : Type} (le : α → α → Bool) : List α → List α
  | [] => []
  | a :: l => insSorted le a (insertionSort le l)

/-- Python string comparison `<`: lexicographic on code points. -/
def strLt : PyStr → PyStr → Bool
  | [], [] => false
  | [], _ :: _ => true
  | _ :: _, [] => false
  | a :: as, b :: bs => if a < b then true else if a = b then strLt as bs else false

/-- Python string comparison `<=`. -/
def strLe (x y : PyStr) : Bool := strLt x y || decide (x = y)

/-! ### The nested-dictionary tree of `build_directory_tree` -/

def wSlash : PyStr := "/".data

/-- The program's `file_path.split(os.sep)` (POSIX separator `/`). -/
def pathParts (p : PyStr) : List PyStr := pySplit p wSlash

/-- Join a list of strings with a separator (inverse of splitting). -/
def joinParts (sep : PyStr) : List PyStr → PyStr
  | [] => []
  | [x] => x
  | x :: xs => x ++ sep ++ joinParts sep xs

mutual
/-- A node of the nested-dictionary tree: a file entry
`{"type": "file", "status": s, "changes": (ins, del)}` or a directory
entry `{"type": "dir", "children": {...}}`. -/
inductive Node where
  | file (status : String) (changes : Int × Int) : Node
  | dir (children : Children) : Node
/-- An insertion-ordered Python dictionary from names to child nodes,
modelled as an association list in insertion order. -/
inductive Children where
  | nil : Children
  | cons (name : PyStr) (node : Node) (rest : Children) : Children
end

/-- Python dictionary lookup `d[k]`. -/
def dictGet (k : PyStr) : Children → Option Node
  | .nil => none
  | .cons k' n rest => if k' = k then some n else dictGet k rest

/-- Python dictionary assignment `d[k] = v`: updates in place when the
key is present (keeping its position), else appends at the end. -/
def dictSet (k : PyStr) (v : Node) : Children → Children
  | .nil => .cons k v .nil
  | .cons k' n rest => if k' = k then .cons k v rest else .cons k' n (dictSet k v rest)

/-- One iteration of the tree-building loop of `build_directory_tree`
for a single path split into segments: descend through (creating
missing) directory nodes and write the file leaf at the last segment.
`none` models the `KeyError` raised by `current[part]["children"]`
when the node already present at an intermediate segment is a file
entry (a file dictionary has no `children` key). -/
def insertPath : Children → List PyStr → Node → Option Children
  | t, [], _ => some t
  | t, [part], leaf => some (dictSet part leaf t)
  | t, part :: rest, leaf =>
    match dictGet part t with
    | some (Node.file _ _) => none
    | some (Node.dir ch) =>
      (insertPath ch rest leaf).map (fun ch' => dictSet part (Node.dir ch') t)
    | none =>
      (insertPath Children.nil rest leaf).map (fun ch' => dictSet part (Node.dir ch') t)

/-- Follow a chain of names down the tree. -/
def lookupChain : Children → List PyStr → Option Node
  | _, [] => none
  | t, [k] => dictGet k t
  | t, k :: rest =>
    match dictGet k t with
    | some (Node.dir ch) => lookupChain ch rest
    | _ => none

mutual
/-- Leaf name-chains below a node. -/
def nodeLeafChains : Node → List (List PyStr)
  | .file _ _ => [[]]
  | .dir ch => treeLeafChains ch
/-- Leaf name-chains of a tree: one chain per file leaf. -/
def treeLeafChains : Children → List (List PyStr)
  | .nil => []
  | .cons k n rest => (nodeLeafChains n).map (fun c => k :: c) ++ treeLeafChains rest
end

/-- The chain reaches a file leaf. -/
def isFileAt (t : Children) (c : List PyStr) : Prop :=
  ∃ s ch, lookupChain t c = some (Node.file s ch)

/-- A key does not occur in a dictionary. -/
def keyAbsent (k : PyStr) : Children → Prop
  | .nil => True
  | .cons k' _ rest => k' ≠ k ∧ keyAbsent k rest

mutual
/-- Well-formedness of a node: keys are distinct at every level (true
of every Python dictionary). -/
def WFn : Node → Prop
  | .file _ _ => True
  | .dir ch => WFc ch
/-- Well-formedness of a dictionary: keys are distinct at every level. -/
def WFc : Children → Prop
  | .nil => True
  | .cons k n rest => keyAbsent k rest ∧ WFn n ∧ WFc rest
end

/-- A record of the program's `changed_files_data` list. -/
structure CFRecord where
  path : PyStr
  insertions : Int
  deletions : Int
  total_changes : Int
deriving DecidableEq

/-- The per-path classification in the loop of `build_directory_tree`
(lines 115-141): status and magnitude for the new leaf, plus the
`changed_files_data` record appended when the file is classified
changed. -/
def classifyPath (files1 files2 : List PyStr) (read1 read2 : PyStr → Option (List Byte))
    (p : PyStr) : (String × (Int × Int)) × List CFRecord :=
  if p ∈ files2 ∧ p ∉ files1 then ((statusAdded, (0, 0)), [])
  else if p ∈ files1 ∧ p ∉ files2 then ((statusRemoved, (0, 0)), [])
  else
    let pd := parse_diffstat (run_xxd_diff (read1 p) (read2 p))
    if 0 < pd.1 ∨ 0 < pd.2 then
      ((statusChanged, pd), [⟨p, pd.1, pd.2, pd.1 + pd.2⟩])
    else ((statusUnchanged, (0, 0)), [])

/-- The tree-building loop over the sorted union of paths, carrying
the tree and the accumulated `changed_files_data`; `none` models the
uncaught `KeyError` aborting `build_directory_tree`. -/
def buildList (files1 files2 : List PyStr) (read1 read2 : PyStr → Option (List Byte)) :
    List PyStr → Children × List CFRecord → Option (Children × List CFRecord)
  | [], st => some st
  | p :: rest, st =>
    let cl := classifyPath files1 files2 read1 read2 p
    match insertPath st.1 (pathParts p) (Node.file cl.1.1 cl.1.2) with
    | none => none
    | some t' => buildList files1 files2 read1 read2 rest (t', st.2 ++ cl.2)

/-- The program's `build_directory_tree`, over the abstracted
filesystem: `files1` and `files2` are the relative-path listings the
excluded `get_all_files` returns for the two roots (sets, hence
deduplicated), and `read1`/`read2` are the per-path byte contents,
`none` meaning the file cannot be read (`xxd` then fails).  Returns
the tree and the changed-files list, or `none` when insertion raises. -/
def build_directory_tree (files1 files2 : List PyStr)
    (read1 read2 : PyStr → Option (List Byte)) : Option (Children × List CFRecord) :=
  buildList files1 files2 read1 read2
    (insertionSort strLe ((files1 ++ files2).dedup)) (Children.nil, [])

/-! ### The significance analyzer -/

/-- Decides `total > mean + mult * stdev` with `stdev = √variance`
without leaving the rationals: for `mult ≥ 0` and `variance ≥ 0` the
comparison is equivalent to
`mean < total ∧ mult² * variance < (total - mean)²`. -/
def exceedsThreshold (mean variance mult : ℚ) (total : Int) : Bool :=
  decide (mean < (total : ℚ)) && decide (mult ^ 2 * variance < ((total : ℚ) - mean) ^ 2)

/-- Descending-by-total comparison for the final sort
(`sort(key=lambda x: x["total_changes"], reverse=True)`, stable). -/
def recGe (a b : CFRecord) : Bool := decide (b.total_changes ≤ a.total_changes)

/-- The mean of the totals, `statistics.mean(total_changes)`. -/
def meanOf (data : List CFRecord) : ℚ :=
  (data.map (fun r => (r.total_changes : ℚ))).sum / (data.length : ℚ)

/-- The sample variance of the totals (`statistics.stdev` squared,
n−1 denominator), 0 when there is at most one record. -/
def varOf (data : List CFRecord) : ℚ :=
  if 1 < data.length then
    ((data.map (fun r => (r.total_changes : ℚ))).map (fun t => (t - meanOf data) ^ 2)).sum /
      ((data.length : ℚ) - 1)
  else 0

/-- The program's `identify_significant_changes`: `none` models the
early bare `return []` on empty input (the caller only unpacks the
triple after checking non-emptiness); otherwise the triple of the
outliers sorted by total descending (stable), the mean, and the
sample variance (n−1 denominator, 0 when there is a single record).
The source carries the float `threshold = mean + multiplier * stdev`
with `stdev = sqrt(variance)`; the square root being irrational, the
model returns the variance and the threshold comparison is
`exceedsThreshold`. -/
def identify_significant_changes (data : List CFRecord) (mult : ℚ) :
    Option (List CFRecord × ℚ × ℚ) :=
  match data with
  | [] => none
  | _ :: _ =>
    let totals : List ℚ := data.map (fun r => (r.total_changes : ℚ))
    let mean : ℚ := totals.sum / (data.length : ℚ)
    let variance : ℚ :=
      if 1 < data.length then
        (totals.map (fun t => (t - mean) ^ 2)).sum / ((data.length : ℚ) - 1)
      else 0
    some (insertionSort recGe
      (data.filter (fun r => exceedsThreshold mean variance mult r.total_changes)),
      mean, variance)

/-- The chain reaches a file leaf, relative to a node. -/
def nodeIsFileAt : Node → List PyStr → Prop
  | .file _ _, c => c = []
  | .dir ch, c => isFileAt ch c

/-- The leaf node the tree-building loop writes for a path. -/
def classifyLeaf (files1 files2 : List PyStr) (read1 read2 : PyStr → Option (List Byte))
    (p : PyStr) : Node :=
  Node.file (classifyPath files1 files2 read1 read2 p).1.1
    (classifyPath files1 files2 read1 read2 p).1.2

/-! ### Generic prefix/infix decomposition lemmas -/

theorem prefix_append_cases {α : Type} {p a b : List α} (h : p <+: a ++ b) :
    p <+: a ∨ (a <+: p ∧ p.drop a.length <+: b) := by
  induction a generalizing p with
  | nil => exact Or.inr ⟨⟨p, rfl⟩, by simpa using h⟩
  | cons x a' ih =>
    cases p with
    | nil => exact Or.inl ⟨x :: a', rfl⟩
    | cons y p' =>
      rw [List.cons_append, List.cons_prefix_cons] at h
      obtain ⟨rfl, h'⟩ := h
      rcases ih h' with h1 | ⟨h2, h3⟩
      · exact Or.inl (List.cons_prefix_cons.mpr ⟨rfl, h1⟩)
      · exact Or.inr ⟨List.cons_prefix_cons.mpr ⟨rfl, h2⟩, by simpa using h3⟩

theorem prefix_of_prefix_append {α : Type} {p a b : List α} (h : p <+: a ++ b)
    (hl : p.length ≤ a.length) : p <+: a := by
  rcases prefix_append_cases h with h1 | ⟨h2, h3⟩
  · exact h1
  · have hap : a = p := h2.eq_of_length (le_antisymm h2.length_le hl)
    rw [hap]

theorem infix_append_cases {α : Type} {pat a b : List α} (h : pat <:+: a ++ b) :
    pat <:+: a ∨ pat <:+: b ∨
      ∃ p q, pat = p ++ q ∧ p ≠ [] ∧ q ≠ [] ∧ p <:+ a ∧ q <+: b := by
  induction a generalizing pat with
  | nil => exact Or.inr (Or.inl (by simpa using h))
  | cons x a' ih =>
    rw [List.cons_append] at h
    rcases List.infix_cons_iff.mp h with hpre | hinf
    · rcases prefix_append_cases (a := x :: a') (b := b) hpre with h1 | ⟨h2, h3⟩
      · exact Or.inl h1.isInfix
      · obtain ⟨t, ht⟩ := h2
        have hdt : pat.drop (x :: a').length = t := by
          rw [← ht, List.drop_left]
        rw [hdt] at h3
        by_cases hq : t = []
        · subst hq
          rw [List.append_nil] at ht
          exact Or.inl (ht ▸ List.infix_refl pat)
        · exact Or.inr (Or.inr ⟨x :: a', t, ht.symm, by simp, hq, List.suffix_refl _, h3⟩)
    · rcases ih hinf with h1 | h2 | ⟨p, q, hpq, hp, hq, hsuf, hpre'⟩
      · exact Or.inl (h1.trans ⟨[x], [], by simp⟩)
      · exact Or.inr (Or.inl h2)
      · exact Or.inr (Or.inr ⟨p, q, hpq, hp, hq, hsuf.trans ⟨[x], rfl⟩, hpre'⟩)

theorem not_infix_of_not_mem {α : Type} (c : α) {pat s : List α}
    (hc : c ∈ pat) (hs : c ∉ s) : ¬ pat <:+: s :=
  fun h => hs (h.sublist.subset hc)

theorem notInfix_pair_append {α : Type} {c₁ c₂ : α} {a b : List α}
    (ha : ¬ [c₁, c₂] <:+: a) (hb : ¬ [c₁, c₂] <:+: b)
    (hj : ¬ (a.getLast? = some c₁ ∧ b.head? = some c₂)) : ¬ [c₁, c₂] <:+: a ++ b := by
  intro h
  rcases infix_append_cases h with h1 | h2 | ⟨p, q, hpq, hp, hq, hsuf, hpre⟩
  · exact ha h1
  · exact hb h2
  · have hplen : p.length + q.length = 2 := by
      have := congrArg List.length hpq
      simpa using this.symm
    have hp1 : p.length = 1 ∧ q.length = 1 := by
      rcases Nat.eq_zero_or_pos p.length with h0 | h0
      · exact absurd (List.length_eq_zero.mp h0) hp
      · rcases Nat.eq_zero_or_pos q.length with h0' | h0'
        · exact absurd (List.length_eq_zero.mp h0') hq
        · omega
    obtain ⟨u, rfl⟩ := List.length_eq_one.mp hp1.1
    obtain ⟨v, rfl⟩ := List.length_eq_one.mp hp1.2
    have huv : u = c₁ ∧ v = c₂ := by
      have : [u, v] = [c₁, c₂] := by simpa using hpq.symm
      simpa using this
    obtain ⟨rfl, rfl⟩ := huv
    obtain ⟨r, hr⟩ := hsuf
    obtain ⟨r', hr'⟩ := hpre
    refine hj ⟨?_, ?_⟩
    · rw [← hr]
      exact List.getLast?_concat r
    · rw [← hr']
      rfl

/-! ### Characterisation of `pySplit` -/

theorem pySplitAux_nil (s0 : Char) (sr : PyStr) (f : Nat) (acc : PyStr) :
    pySplitAux s0 sr f [] acc = [acc.reverse] := by
  cases f <;> rfl

theorem pySplitAux_cons (s0 : Char) (sr : PyStr) (f : Nat) (c : Char) (rest acc : PyStr) :
    pySplitAux s0 sr (f + 1) (c :: rest) acc =
      if c = s0 ∧ sr.isPrefixOf rest then
        acc.reverse :: pySplitAux s0 sr f (rest.drop sr.length) []
      else
        pySplitAux s0 sr f rest (c :: acc) := rfl

theorem pySplitAux_fuel (s0 : Char) (sr : PyStr) :
    ∀ f g s acc, s.length ≤ f → s.length ≤ g →
      pySplitAux s0 sr f s acc = pySplitAux s0 sr g s acc := by
  intro f
  induction f with
  | zero =>
    intro g s acc hf _
    rw [List.length_eq_zero.mp (Nat.le_zero.mp hf)]
    rw [pySplitAux_nil, pySplitAux_nil]
  | succ f ih =>
    intro g s acc hf hg
    cases s with
    | nil => rw [pySplitAux_nil, pySplitAux_nil]
    | cons c rest =>
      cases g with
      | zero => simp at hg
      | succ g =>
        show (if c = s0 ∧ sr.isPrefixOf rest then _ else _) =
          (if c = s0 ∧ sr.isPrefixOf rest then _ else _)
        by_cases hc : c = s0 ∧ sr.isPrefixOf rest
        · rw [if_pos hc, if_pos hc]
          have h1 : (rest.drop sr.length).length ≤ f := by
            simp only [List.length_cons] at hf
            simp only [List.length_drop]
            omega
          have h2 : (rest.drop sr.length).length ≤ g := by
            simp only [List.length_cons] at hg
            simp only [List.length_drop]
            omega
          rw [ih g _ [] h1 h2]
        · rw [if_neg hc, if_neg hc]
          have h1 : rest.length ≤ f := by
            simp only [List.length_cons] at hf; omega
          have h2 : rest.length ≤ g := by
            simp only [List.length_cons] at hg; omega
          rw [ih g _ (c :: acc) h1 h2]

theorem pySplitAux_no_occurrence (s0 : Char) (sr : PyStr) :
    ∀ s acc f, s.length ≤ f → (∀ t, t <:+ s → ¬ (s0 :: sr) <+: t) →
      pySplitAux s0 sr f s acc = [acc.reverse ++ s] := by
  intro s
  induction s with
  | nil => intro acc f _ _; rw [pySplitAux_nil]; simp
  | cons c rest ih =>
    intro acc f hf hno
    cases f with
    | zero => simp at hf
    | succ f =>
      show (if c = s0 ∧ sr.isPrefixOf rest then _ else _) = _
      rw [if_neg, ih (c :: acc) f (by simp only [List.length_cons] at hf; omega)
        (fun t ht => hno t (ht.trans ⟨[c], rfl⟩))]
      · simp
      · rintro ⟨rfl, hpre⟩
        exact hno (c :: rest) (List.suffix_refl _)
          (List.cons_prefix_cons.mpr ⟨rfl, List.isPrefixOf_iff_prefix.mp hpre⟩)

theorem pySplitAux_boundary (s0 : Char) (sr b : PyStr) :
    ∀ a acc f, (a ++ (s0 :: sr) ++ b).length ≤ f →
      (∀ t, t <:+ a → t ≠ [] → ¬ (s0 :: sr) <+: (t ++ (s0 :: sr) ++ b)) →
      pySplitAux s0 sr f (a ++ (s0 :: sr) ++ b) acc =
        (acc.reverse ++ a) :: pySplitAux s0 sr b.length b [] := by
  intro a
  induction a with
  | nil =>
    intro acc f hf _
    simp only [List.nil_append] at hf ⊢
    cases f with
    | zero => simp at hf
    | succ f =>
      rw [List.cons_append, pySplitAux_cons,
        if_pos ⟨rfl, List.isPrefixOf_iff_prefix.mpr ⟨b, rfl⟩⟩, List.drop_left]
      rw [pySplitAux_fuel s0 sr f b.length b [] (by simp at hf; omega) le_rfl]
      simp
  | cons c a' ih =>
    intro acc f hf hno
    cases f with
    | zero => simp at hf
    | succ f =>
      rw [List.cons_append, List.cons_append, pySplitAux_cons]
      rw [if_neg, ih (c :: acc) f (by simp only [List.length_append, List.length_cons] at hf ⊢; omega)
        (fun t ht htne => hno t (ht.trans ⟨[c], rfl⟩) htne)]
      · simp
      · rintro ⟨rfl, hpre⟩
        exact hno (c :: a') (List.suffix_refl _) (by simp)
          (List.cons_prefix_cons.mpr ⟨rfl, by
            simpa using List.isPrefixOf_iff_prefix.mp hpre⟩)

theorem pySplit_eq_single {s sep : PyStr} (h0 : sep ≠ []) (h : ¬ sep <:+: s) :
    pySplit s sep = [s] := by
  cases sep with
  | nil => exact absurd rfl h0
  | cons s0 sr =>
    show pySplitAux s0 sr s.length s [] = [s]
    rw [pySplitAux_no_occurrence s0 sr s [] s.length le_rfl]
    · simp
    · intro t ht hpre
      exact h (hpre.isInfix.trans ht.isInfix)

theorem pySplit_eq_cons {pre post sep : PyStr} (h0 : sep ≠ [])
    (hnotin : ¬ sep <:+: pre)
    (hover : ∀ k, 0 < k → k < sep.length → ¬ sep.drop k <+: sep) :
    pySplit (pre ++ sep ++ post) sep = pre :: pySplit post sep := by
  cases sep with
  | nil => exact absurd rfl h0
  | cons s0 sr =>
    show pySplitAux s0 sr _ (pre ++ (s0 :: sr) ++ post) [] = pre :: pySplitAux s0 sr _ post []
    rw [pySplitAux_boundary s0 sr post pre [] _ le_rfl]
    · simp
    · intro t ht htne hpre
      rw [List.append_assoc] at hpre
      rcases prefix_append_cases (a := t) (b := (s0 :: sr) ++ post) hpre with h1 | ⟨h2, h3⟩
      · exact hnotin (h1.isInfix.trans ht.isInfix)
      · rcases Nat.lt_or_ge t.length (s0 :: sr).length with hlt | hge
        · have hd : ((s0 :: sr).drop t.length).length ≤ (s0 :: sr).length := by
            simp [List.length_drop]
          have := prefix_of_prefix_append h3 hd
          exact hover t.length (by
            cases t with
            | nil => exact absurd rfl htne
            | cons u t' => simp) hlt this
        · have hteq : t = s0 :: sr := h2.eq_of_length (le_antisymm h2.length_le hge)
          exact hnotin (hteq ▸ ht.isInfix)

/-! ### Digit and whitespace facts -/

/-- The ten decimal digit characters. -/
def decimalDigits : PyStr := ['0', '1', '2', '3', '4', '5', '6', '7', '8', '9']

theorem digitChar_mem (n : Nat) : digitChar n ∈ decimalDigits := by
  unfold digitChar
  split <;> decide

theorem reprNatAux_mem : ∀ f n c, c ∈ reprNatAux f n → c ∈ decimalDigits := by
  intro f
  induction f with
  | zero => intro n c h; simp [reprNatAux] at h
  | succ f ih =>
    intro n c h
    rw [reprNatAux] at h
    by_cases h10 : n < 10
    · rw [if_pos h10] at h
      rcases List.mem_singleton.mp h with rfl
      exact digitChar_mem n
    · rw [if_neg h10] at h
      rcases List.mem_append.mp h with h1 | h1
      · exact ih _ c h1
      · rcases List.mem_singleton.mp h1 with rfl
        exact digitChar_mem _

theorem reprNat_mem {n : Nat} {c : Char} (h : c ∈ reprNat n) : c ∈ decimalDigits :=
  reprNatAux_mem (n + 1) n c h

theorem not_mem_reprNat {c : Char} (hc : c ∉ decimalDigits) (n : Nat) : c ∉ reprNat n :=
  fun h => hc (reprNat_mem h)

theorem reprNat_ne_nil (n : Nat) : reprNat n ≠ [] := by
  unfold reprNat reprNatAux
  by_cases h10 : n < 10
  · rw [if_pos h10]; simp
  · rw [if_neg h10]; simp

theorem not_mem_replicate {c x : Char} (h : c ≠ x) (n : Nat) : c ∉ List.replicate n x :=
  fun hm => h (List.mem_replicate.mp hm).2

theorem getLast?_ne {s : PyStr} {c : Char} (h : c ∉ s) : s.getLast? ≠ some c :=
  fun he => h (List.mem_of_mem_getLast? (by rw [he]; rfl))

theorem digitVal_digitChar : ∀ n, n < 10 → digitVal (digitChar n) = n := by decide

theorem digitsToNat_snoc (xs : PyStr) (c : Char) :
    digitsToNat (xs ++ [c]) = 10 * digitsToNat xs + digitVal c := by
  unfold digitsToNat
  rw [List.foldl_append]
  simp [Nat.mul_comm]

theorem reprNatAux_toNat : ∀ f n, n < f → digitsToNat (reprNatAux f n) = n := by
  intro f
  induction f with
  | zero => intro n hn; omega
  | succ f ih =>
    intro n hn
    rw [reprNatAux]
    by_cases h10 : n < 10
    · rw [if_pos h10]
      show digitsToNat ([] ++ [digitChar n]) = n
      rw [digitsToNat_snoc]
      have := digitVal_digitChar n h10
      simp [digitsToNat]
      omega
    · rw [if_neg h10]
      have hdiv : n / 10 < n := Nat.div_lt_self (by omega) (by norm_num)
      rw [digitsToNat_snoc, ih (n / 10) (by omega),
        digitVal_digitChar (n % 10) (Nat.mod_lt n (by norm_num))]
      omega

theorem digitsToNat_reprNat (n : Nat) : digitsToNat (reprNat n) = n :=
  reprNatAux_toNat (n + 1) n (Nat.lt_succ_self n)

/-! ### Behaviour of `pyStrip` and `pyInt` on the relevant pieces -/

theorem mem_dropWhile_of_mem {p : Char → Bool} {c : Char} (hc : p c = false) :
    ∀ {l : PyStr}, c ∈ l → c ∈ l.dropWhile p := by
  intro l
  induction l with
  | nil => intro h; exact absurd h (List.not_mem_nil c)
  | cons x xs ih =>
    intro h
    rw [List.dropWhile_cons]
    by_cases hx : p x
    · rw [if_pos hx]
      rcases List.mem_cons.mp h with rfl | hmem
      · rw [hx] at hc; cases hc
      · exact ih hmem
    · rw [if_neg hx]; exact h

theorem mem_pyStrip {s : PyStr} {c : Char} (hc : c.isWhitespace = false) (h : c ∈ s) :
    c ∈ pyStrip s := by
  unfold pyStrip
  exact List.mem_reverse.mpr (mem_dropWhile_of_mem hc
    (List.mem_reverse.mpr (mem_dropWhile_of_mem hc h)))

theorem dropWhile_eq_self_of_head {p : Char → Bool} :
    ∀ {l : PyStr}, (∀ c, l.head? = some c → p c = false) → l.dropWhile p = l := by
  intro l h
  cases l with
  | nil => rfl
  | cons x xs =>
    rw [List.dropWhile_cons, if_neg]
    rw [h x rfl]
    simp

theorem pyStrip_eq_self {ds : PyStr}
    (hh : ∀ c, ds.head? = some c → c.isWhitespace = false)
    (hl : ∀ c, ds.getLast? = some c → c.isWhitespace = false) : pyStrip ds = ds := by
  unfold pyStrip
  rw [dropWhile_eq_self_of_head hh]
  rw [dropWhile_eq_self_of_head (by
    intro c h
    rw [List.head?_reverse] at h
    exact hl c h)]
  exact List.reverse_reverse ds

theorem digits_not_ws : ∀ c ∈ decimalDigits, c.isWhitespace = false := by decide

theorem digits_isDigit : ∀ c ∈ decimalDigits, c.isDigit = true := by decide

theorem head?_ne_digits {ds : PyStr} (hd : ∀ c ∈ ds, c ∈ decimalDigits) :
    ∀ c, ds.head? = some c → c.isWhitespace = false := by
  intro c h
  have hc : c ∈ ds := List.mem_of_mem_head? (by rw [h]; rfl)
  exact digits_not_ws c (hd c hc)

theorem not_mem_append {c : Char} {a b : List Char} (ha : c ∉ a) (hb : c ∉ b) :
    c ∉ a ++ b := fun h => (List.mem_append.mp h).elim (fun h' => ha h') (fun h' => hb h')

theorem notInfix_pair_chain {c₁ c₂ : Char} {a b : List Char}
    (ha : ¬ [c₁, c₂] <:+: a)
    (hlast : a.getLast? ≠ some c₁ ∨ b.head? ≠ some c₂)
    (hb : ¬ [c₁, c₂] <:+: b) : ¬ [c₁, c₂] <:+: a ++ b :=
  notInfix_pair_append ha hb (fun hj => hlast.elim (fun h => h hj.1) (fun h => h hj.2))

theorem hover_insertion :
    ∀ k, 0 < k → k < wInsertion.length → ¬ wInsertion.drop k <+: wInsertion := by
  intro k h1 h2
  have h2' : k < 9 := h2
  interval_cases k <;> decide

theorem hover_deletion :
    ∀ k, 0 < k → k < wDeletion.length → ¬ wDeletion.drop k <+: wDeletion := by
  intro k h1 h2
  have h2' : k < 8 := h2
  interval_cases k <;> decide

theorem hover_comma :
    ∀ k, 0 < k → k < wComma.length → ¬ wComma.drop k <+: wComma := by
  intro k h1 h2
  have h2' : k < 1 := h2
  omega

theorem insTail_getLast (i : Nat) : (insTail i).getLast? = some ')' := by
  unfold insTail; split <;> decide

theorem delTail_getLast (d : Nat) : (delTail d).getLast? = some ')' := by
  unfold delTail; split <;> decide

theorem not_mem_insTail {c : Char} (h1 : c ∉ wParenPlus) (h2 : c ∉ wSParenPlus) (i : Nat) :
    c ∉ insTail i := by
  unfold insTail; split
  · exact h1
  · exact h2

theorem not_mem_delTail {c : Char} (h1 : c ∉ wParenMinus) (h2 : c ∉ wSParenMinus) (d : Nat) :
    c ∉ delTail d := by
  unfold delTail; split
  · exact h1
  · exact h2

theorem pair_notInfix_insTail {c₁ c₂ : Char} (h1 : ¬ [c₁, c₂] <:+: wParenPlus)
    (h2 : ¬ [c₁, c₂] <:+: wSParenPlus) (i : Nat) : ¬ [c₁, c₂] <:+: insTail i := by
  unfold insTail; split
  · exact h1
  · exact h2

theorem pair_notInfix_delTail {c₁ c₂ : Char} (h1 : ¬ [c₁, c₂] <:+: wParenMinus)
    (h2 : ¬ [c₁, c₂] <:+: wSParenMinus) (d : Nat) : ¬ [c₁, c₂] <:+: delTail d := by
  unfold delTail; split
  · exact h1
  · exact h2

theorem pyStrip_cons_space (t : PyStr) : pyStrip (' ' :: t) = pyStrip t := by
  unfold pyStrip
  rw [List.dropWhile_cons, if_pos (by decide)]

theorem head?_append_left {a b : List Char} (h : a ≠ []) : (a ++ b).head? = a.head? := by
  obtain ⟨e, t, rfl⟩ := List.exists_cons_of_ne_nil h
  rfl

theorem pyStrip_wrap {ds : PyStr} (hne : ds ≠ []) (hd : ∀ c ∈ ds, c ∈ decimalDigits) :
    pyStrip ([' '] ++ ds ++ [' ']) = ds := by
  have h1 : ([' '] ++ ds ++ [' '] : PyStr) = ' ' :: (ds ++ [' ']) := rfl
  rw [h1, pyStrip_cons_space]
  have h2 : List.dropWhile Char.isWhitespace (ds ++ [' ']) = ds ++ [' '] :=
    dropWhile_eq_self_of_head (fun c hc => by
      rw [head?_append_left hne] at hc
      exact digits_not_ws c (hd c (List.mem_of_mem_head? (by rw [hc]; rfl))))
  have h3 : (ds ++ [' ']).reverse = ' ' :: ds.reverse := by simp
  have h4 : List.dropWhile Char.isWhitespace ds.reverse = ds.reverse :=
    dropWhile_eq_self_of_head (fun c hc => by
      rw [List.head?_reverse] at hc
      exact digits_not_ws c (hd c (List.mem_of_mem_getLast? (by rw [hc]; rfl))))
  unfold pyStrip
  rw [h2, h3, List.dropWhile_cons, if_pos (by decide), h4, List.reverse_reverse]

theorem pyInt_digits {ds : PyStr} (hne : ds ≠ []) (hd : ∀ c ∈ ds, c ∈ decimalDigits) :
    pyInt ds = some ((digitsToNat ds : Int)) := by
  have hstrip : pyStrip ds = ds := pyStrip_eq_self
    (fun c hc => digits_not_ws c (hd c (List.mem_of_mem_head? (by rw [hc]; rfl))))
    (fun c hc => digits_not_ws c (hd c (List.mem_of_mem_getLast? (by rw [hc]; rfl))))
  obtain ⟨e, t, rfl⟩ := List.exists_cons_of_ne_nil hne
  have hdash : ¬ e = '-' := fun h => by
    subst h
    exact absurd (hd '-' (by simp)) (by decide)
  have hplus : ¬ e = '+' := fun h => by
    subst h
    exact absurd (hd '+' (by simp)) (by decide)
  have hall : (e :: t).all Char.isDigit = true :=
    List.all_eq_true.mpr (fun c hc => digits_isDigit c (hd c hc))
  unfold pyInt
  rw [hstrip]
  simp only [if_neg hdash, if_neg hplus, if_pos hall]

theorem pyInt_reprNat (n : Nat) : pyInt (reprNat n) = some ((n : Int)) := by
  rw [pyInt_digits (reprNat_ne_nil n) (fun c hc => reprNat_mem hc), digitsToNat_reprNat]

/-! ### Evaluating `parse_diffstat` on the modelled diffstat output -/

theorem diffstatOutput_del (d : Nat) (hd : 0 < d) :
    diffstatOutput 0 d =
      wHdr ++ (reprNat d ++ (wSpace ++ (List.replicate d '-' ++ (wFileChanged ++
        (wComma ++ (wSpace ++ (reprNat d ++ (wSpace ++ (wDeletion ++ delTail d))))))))) := by
  unfold diffstatOutput
  rw [if_neg (by rintro ⟨-, h⟩; omega), if_neg (by omega), if_pos hd]
  simp [List.append_assoc]

theorem no_sSpace_del (d : Nat) (hd : 0 < d) : ¬ ['s', ' '] <:+: diffstatOutput 0 d := by
  rw [diffstatOutput_del d hd]
  refine notInfix_pair_chain (by decide) (Or.inl (by decide)) ?_
  refine notInfix_pair_chain (not_infix_of_not_mem 's' (by decide) (not_mem_reprNat (by decide) d))
    (Or.inl (getLast?_ne (not_mem_reprNat (by decide) d))) ?_
  refine notInfix_pair_chain (by decide) (Or.inl (by decide)) ?_
  refine notInfix_pair_chain (not_infix_of_not_mem 's' (by decide) (not_mem_replicate (by decide) d))
    (Or.inl (getLast?_ne (not_mem_replicate (by decide) d))) ?_
  refine notInfix_pair_chain (by decide) (Or.inl (by decide)) ?_
  refine notInfix_pair_chain (by decide) (Or.inl (by decide)) ?_
  refine notInfix_pair_chain (by decide) (Or.inl (by decide)) ?_
  refine notInfix_pair_chain (not_infix_of_not_mem 's' (by decide) (not_mem_reprNat (by decide) d))
    (Or.inl (getLast?_ne (not_mem_reprNat (by decide) d))) ?_
  refine notInfix_pair_chain (by decide) (Or.inl (by decide)) ?_
  exact notInfix_pair_chain (by decide) (Or.inl (by decide))
    (pair_notInfix_delTail (by decide) (by decide) d)

theorem parse_del (d : Nat) (hd : 0 < d) :
    parse_diffstat (diffstatOutput 0 d) = (0, (d : Int)) := by
  have hc0 : strContains (diffstatOutput 0 d) wZeroFiles = false :=
    decide_eq_false (fun h => no_sSpace_del d hd
      ((by decide : ['s', ' '] <:+: wZeroFiles).trans h))
  have hcI : strContains (diffstatOutput 0 d) wInsertion = false := by
    apply decide_eq_false
    apply not_infix_of_not_mem 'r' (by decide)
    rw [diffstatOutput_del d hd]
    exact not_mem_append (by decide) (not_mem_append (not_mem_reprNat (by decide) d)
      (not_mem_append (by decide) (not_mem_append (not_mem_replicate (by decide) d)
      (not_mem_append (by decide) (not_mem_append (by decide) (not_mem_append (by decide)
      (not_mem_append (not_mem_reprNat (by decide) d) (not_mem_append (by decide)
      (not_mem_append (by decide) (not_mem_delTail (by decide) (by decide) d))))))))))
  have hcD : strContains (diffstatOutput 0 d) wDeletion = true := by
    apply decide_eq_true
    rw [diffstatOutput_del d hd]
    exact ⟨wHdr ++ (reprNat d ++ (wSpace ++ (List.replicate d '-' ++ (wFileChanged ++
      (wComma ++ (wSpace ++ (reprNat d ++ wSpace))))))), delTail d, by simp [List.append_assoc]⟩
  have htPRE : ('t' : Char) ∉ wHdr ++ (reprNat d ++ (wSpace ++ (List.replicate d '-' ++
      (wFileChanged ++ (wComma ++ (wSpace ++ (reprNat d ++ wSpace))))))) :=
    not_mem_append (by decide) (not_mem_append (not_mem_reprNat (by decide) d)
      (not_mem_append (by decide) (not_mem_append (not_mem_replicate (by decide) d)
      (not_mem_append (by decide) (not_mem_append (by decide) (not_mem_append (by decide)
      (not_mem_append (not_mem_reprNat (by decide) d) (by decide))))))))
  have hsplitD : pySplit (diffstatOutput 0 d) wDeletion =
      [wHdr ++ (reprNat d ++ (wSpace ++ (List.replicate d '-' ++ (wFileChanged ++
        (wComma ++ (wSpace ++ (reprNat d ++ wSpace))))))), delTail d] := by
    have hre : diffstatOutput 0 d =
        (wHdr ++ (reprNat d ++ (wSpace ++ (List.replicate d '-' ++ (wFileChanged ++
          (wComma ++ (wSpace ++ (reprNat d ++ wSpace)))))))) ++ wDeletion ++ delTail d := by
      rw [diffstatOutput_del d hd]
      simp [List.append_assoc]
    rw [hre, pySplit_eq_cons (by decide)
      (not_infix_of_not_mem 't' (by decide) htPRE) hover_deletion]
    rw [pySplit_eq_single (by decide) (by unfold delTail; split <;> decide)]
  have hcIpre : strContains (wHdr ++ (reprNat d ++ (wSpace ++ (List.replicate d '-' ++
      (wFileChanged ++ (wComma ++ (wSpace ++ (reprNat d ++ wSpace)))))))) wInsertion = false :=
    decide_eq_false (not_infix_of_not_mem 't' (by decide) htPRE)
  have hsplitC : pySplit (wHdr ++ (reprNat d ++ (wSpace ++ (List.replicate d '-' ++
      (wFileChanged ++ (wComma ++ (wSpace ++ (reprNat d ++ wSpace)))))))) wComma =
      [wHdr ++ (reprNat d ++ (wSpace ++ (List.replicate d '-' ++ wFileChanged))),
        wSpace ++ (reprNat d ++ wSpace)] := by
    have hre : wHdr ++ (reprNat d ++ (wSpace ++ (List.replicate d '-' ++
        (wFileChanged ++ (wComma ++ (wSpace ++ (reprNat d ++ wSpace))))))) =
        (wHdr ++ (reprNat d ++ (wSpace ++ (List.replicate d '-' ++ wFileChanged)))) ++
          wComma ++ (wSpace ++ (reprNat d ++ wSpace)) := by
      simp [List.append_assoc]
    have hcomA : (',' : Char) ∉ wHdr ++ (reprNat d ++ (wSpace ++ (List.replicate d '-' ++
        wFileChanged))) :=
      not_mem_append (by decide) (not_mem_append (not_mem_reprNat (by decide) d)
        (not_mem_append (by decide) (not_mem_append (not_mem_replicate (by decide) d)
        (by decide))))
    have hcomT : (',' : Char) ∉ wSpace ++ (reprNat d ++ wSpace) :=
      not_mem_append (by decide) (not_mem_append (not_mem_reprNat (by decide) d) (by decide))
    rw [hre, pySplit_eq_cons (by decide)
      (not_infix_of_not_mem ',' (by decide) hcomA) hover_comma]
    rw [pySplit_eq_single (by decide) (not_infix_of_not_mem ',' (by decide) hcomT)]
  have hint : pyInt (pyStrip (wSpace ++ (reprNat d ++ wSpace))) = some ((d : Int)) := by
    have h1 : (wSpace ++ (reprNat d ++ wSpace) : PyStr) = [' '] ++ reprNat d ++ [' '] := by
      simp [wSpace, List.append_assoc]
    rw [h1, pyStrip_wrap (reprNat_ne_nil d) (fun c hc => reprNat_mem hc), pyInt_reprNat]
  unfold parse_diffstat
  rw [hc0, hcI, hcD]
  simp only [Bool.false_eq_true, if_false, if_true, hsplitD]
  simp only [List.headD_cons, hcIpre, Bool.false_eq_true, if_false, hsplitC]
  simp only [pyLast, List.getLastD_cons, List.getLastD_nil, hint]

theorem getLast?_append_right {a b : List Char} (h : b ≠ []) :
    (a ++ b).getLast? = b.getLast? := by
  have hb : b.reverse ≠ [] := fun hh => h (by simpa using hh)
  rw [← List.head?_reverse, List.reverse_append, head?_append_left hb, List.head?_reverse]

theorem diffstatOutput_ins (i : Nat) (hi : 0 < i) :
    diffstatOutput i 0 =
      wHdr ++ (reprNat i ++ (wSpace ++ (List.replicate i '+' ++ (wFileChanged ++
        (wComma ++ (wSpace ++ (reprNat i ++ (wSpace ++ (wInsertion ++ insTail i))))))))) := by
  unfold diffstatOutput
  rw [if_neg (by rintro ⟨h, -⟩; omega), if_pos hi, if_neg (by omega)]
  simp [List.append_assoc]

theorem no_sSpace_ins (i : Nat) (hi : 0 < i) : ¬ ['s', ' '] <:+: diffstatOutput i 0 := by
  rw [diffstatOutput_ins i hi]
  refine notInfix_pair_chain (by decide) (Or.inl (by decide)) ?_
  refine notInfix_pair_chain (not_infix_of_not_mem 's' (by decide) (not_mem_reprNat (by decide) i))
    (Or.inl (getLast?_ne (not_mem_reprNat (by decide) i))) ?_
  refine notInfix_pair_chain (by decide) (Or.inl (by decide)) ?_
  refine notInfix_pair_chain (not_infix_of_not_mem 's' (by decide) (not_mem_replicate (by decide) i))
    (Or.inl (getLast?_ne (not_mem_replicate (by decide) i))) ?_
  refine notInfix_pair_chain (by decide) (Or.inl (by decide)) ?_
  refine notInfix_pair_chain (by decide) (Or.inl (by decide)) ?_
  refine notInfix_pair_chain (by decide) (Or.inl (by decide)) ?_
  refine notInfix_pair_chain (not_infix_of_not_mem 's' (by decide) (not_mem_reprNat (by decide) i))
    (Or.inl (getLast?_ne (not_mem_reprNat (by decide) i))) ?_
  refine notInfix_pair_chain (by decide) (Or.inl (by decide)) ?_
  exact notInfix_pair_chain (by decide) (Or.inl (by decide))
    (pair_notInfix_insTail (by decide) (by decide) i)

theorem no_de_ins (i : Nat) (hi : 0 < i) : ¬ ['d', 'e'] <:+: diffstatOutput i 0 := by
  rw [diffstatOutput_ins i hi]
  refine notInfix_pair_chain (by decide) (Or.inl (by decide)) ?_
  refine notInfix_pair_chain (not_infix_of_not_mem 'd' (by decide) (not_mem_reprNat (by decide) i))
    (Or.inl (getLast?_ne (not_mem_reprNat (by decide) i))) ?_
  refine notInfix_pair_chain (by decide) (Or.inl (by decide)) ?_
  refine notInfix_pair_chain (not_infix_of_not_mem 'd' (by decide) (not_mem_replicate (by decide) i))
    (Or.inl (getLast?_ne (not_mem_replicate (by decide) i))) ?_
  refine notInfix_pair_chain (by decide)
    (Or.inr (by rw [head?_append_left (by decide)]; decide)) ?_
  refine notInfix_pair_chain (by decide) (Or.inl (by decide)) ?_
  refine notInfix_pair_chain (by decide) (Or.inl (by decide)) ?_
  refine notInfix_pair_chain (not_infix_of_not_mem 'd' (by decide) (not_mem_reprNat (by decide) i))
    (Or.inl (getLast?_ne (not_mem_reprNat (by decide) i))) ?_
  refine notInfix_pair_chain (by decide) (Or.inl (by decide)) ?_
  exact notInfix_pair_chain (by decide) (Or.inl (by decide))
    (pair_notInfix_insTail (by decide) (by decide) i)

theorem parse_ins (i : Nat) (hi : 0 < i) :
    parse_diffstat (diffstatOutput i 0) = ((i : Int), 0) := by
  have hc0 : strContains (diffstatOutput i 0) wZeroFiles = false :=
    decide_eq_false (fun h => no_sSpace_ins i hi
      ((by decide : ['s', ' '] <:+: wZeroFiles).trans h))
  have hcD : strContains (diffstatOutput i 0) wDeletion = false :=
    decide_eq_false (fun h => no_de_ins i hi
      ((by decide : ['d', 'e'] <:+: wDeletion).trans h))
  have htPRE : ('t' : Char) ∉ wHdr ++ (reprNat i ++ (wSpace ++ (List.replicate i '+' ++
      (wFileChanged ++ (wComma ++ (wSpace ++ (reprNat i ++ wSpace))))))) :=
    not_mem_append (by decide) (not_mem_append (not_mem_reprNat (by decide) i)
      (not_mem_append (by decide) (not_mem_append (not_mem_replicate (by decide) i)
      (not_mem_append (by decide) (not_mem_append (by decide) (not_mem_append (by decide)
      (not_mem_append (not_mem_reprNat (by decide) i) (by decide))))))))
  have hcI : strContains (diffstatOutput i 0) wInsertion = true := by
    apply decide_eq_true
    rw [diffstatOutput_ins i hi]
    exact ⟨wHdr ++ (reprNat i ++ (wSpace ++ (List.replicate i '+' ++ (wFileChanged ++
      (wComma ++ (wSpace ++ (reprNat i ++ wSpace))))))), insTail i, by simp [List.append_assoc]⟩
  have hsplitI : pySplit (diffstatOutput i 0) wInsertion =
      [wHdr ++ (reprNat i ++ (wSpace ++ (List.replicate i '+' ++ (wFileChanged ++
        (wComma ++ (wSpace ++ (reprNat i ++ wSpace))))))), insTail i] := by
    have hre : diffstatOutput i 0 =
        (wHdr ++ (reprNat i ++ (wSpace ++ (List.replicate i '+' ++ (wFileChanged ++
          (wComma ++ (wSpace ++ (reprNat i ++ wSpace)))))))) ++ wInsertion ++ insTail i := by
      rw [diffstatOutput_ins i hi]
      simp [List.append_assoc]
    rw [hre, pySplit_eq_cons (by decide)
      (not_infix_of_not_mem 't' (by decide) htPRE) hover_insertion]
    rw [pySplit_eq_single (by decide) (by unfold insTail; split <;> decide)]
  have hsplitC : pySplit (wHdr ++ (reprNat i ++ (wSpace ++ (List.replicate i '+' ++
      (wFileChanged ++ (wComma ++ (wSpace ++ (reprNat i ++ wSpace)))))))) wComma =
      [wHdr ++ (reprNat i ++ (wSpace ++ (List.replicate i '+' ++ wFileChanged))),
        wSpace ++ (reprNat i ++ wSpace)] := by
    have hre : wHdr ++ (reprNat i ++ (wSpace ++ (List.replicate i '+' ++
        (wFileChanged ++ (wComma ++ (wSpace ++ (reprNat i ++ wSpace))))))) =
        (wHdr ++ (reprNat i ++ (wSpace ++ (List.replicate i '+' ++ wFileChanged)))) ++
          wComma ++ (wSpace ++ (reprNat i ++ wSpace)) := by
      simp [List.append_assoc]
    have hcomA : (',' : Char) ∉ wHdr ++ (reprNat i ++ (wSpace ++ (List.replicate i '+' ++
        wFileChanged))) :=
      not_mem_append (by decide) (not_mem_append (not_mem_reprNat (by decide) i)
        (not_mem_append (by decide) (not_mem_append (not_mem_replicate (by decide) i)
        (by decide))))
    have hcomT : (',' : Char) ∉ wSpace ++ (reprNat i ++ wSpace) :=
      not_mem_append (by decide) (not_mem_append (not_mem_reprNat (by decide) i) (by decide))
    rw [hre, pySplit_eq_cons (by decide)
      (not_infix_of_not_mem ',' (by decide) hcomA) hover_comma]
    rw [pySplit_eq_single (by decide) (not_infix_of_not_mem ',' (by decide) hcomT)]
  have hint : pyInt (pyStrip (wSpace ++ (reprNat i ++ wSpace))) = some ((i : Int)) := by
    have h1 : (wSpace ++ (reprNat i ++ wSpace) : PyStr) = [' '] ++ reprNat i ++ [' '] := by
      simp [wSpace, List.append_assoc]
    rw [h1, pyStrip_wrap (reprNat_ne_nil i) (fun c hc => reprNat_mem hc), pyInt_reprNat]
  unfold parse_diffstat
  rw [hc0, hcI, hcD]
  simp only [Bool.false_eq_true, if_false, if_true, hsplitI, List.headD_cons, hsplitC,
    pyLast, List.getLastD_cons, List.getLastD_nil, hint]

theorem insTail_ne_nil (i : Nat) : insTail i ≠ [] := by
  unfold insTail; split <;> decide

theorem pyInt_junk (i : Nat) :
    pyInt (pyStrip (wSpace ++ (reprNat i ++ (wSpace ++ (wInsertion ++ insTail i))))) = none := by
  obtain ⟨e, t, het⟩ := List.exists_cons_of_ne_nil (reprNat_ne_nil i)
  have hee : e ∈ decimalDigits := @reprNat_mem i e (by rw [het]; exact List.mem_cons_self e t)
  have h1 : (wSpace ++ (reprNat i ++ (wSpace ++ (wInsertion ++ insTail i))) : PyStr) =
      ' ' :: (reprNat i ++ (wSpace ++ (wInsertion ++ insTail i))) := rfl
  have hheadC : (reprNat i ++ (wSpace ++ (wInsertion ++ insTail i))).head? = some e := by
    rw [head?_append_left (reprNat_ne_nil i), het]; rfl
  have hlastC : (reprNat i ++ (wSpace ++ (wInsertion ++ insTail i))).getLast? = some ')' := by
    have hx1 : (wSpace ++ (wInsertion ++ insTail i) : PyStr) ≠ [] := by
      simp [wSpace]
    have hx2 : (wInsertion ++ insTail i : PyStr) ≠ [] := by
      simp [wInsertion]
    rw [getLast?_append_right hx1, getLast?_append_right hx2,
      getLast?_append_right (insTail_ne_nil i), insTail_getLast]
  have hstripC : pyStrip (reprNat i ++ (wSpace ++ (wInsertion ++ insTail i))) =
      reprNat i ++ (wSpace ++ (wInsertion ++ insTail i)) :=
    pyStrip_eq_self
      (fun c hc => by
        rw [hheadC] at hc
        have : e = c := Option.some.inj hc
        subst this
        exact digits_not_ws e hee)
      (fun c hc => by
        rw [hlastC] at hc
        have : (')' : Char) = c := Option.some.inj hc
        subst this
        decide)
  have hconsC : (reprNat i ++ (wSpace ++ (wInsertion ++ insTail i)) : PyStr) =
      e :: (t ++ (wSpace ++ (wInsertion ++ insTail i))) := by
    rw [het, List.cons_append]
  have he1 : ¬ e = '-' := fun h => by
    subst h; exact absurd hee (by decide)
  have he2 : ¬ e = '+' := fun h => by
    subst h; exact absurd hee (by decide)
  have hall : ¬ ((e :: (t ++ (wSpace ++ (wInsertion ++ insTail i)))).all Char.isDigit = true) := by
    intro hal
    have hn := List.all_eq_true.mp hal 'n' (by
      apply List.mem_cons_of_mem
      apply List.mem_append_right
      apply List.mem_append_right
      apply List.mem_append_left
      decide)
    exact absurd hn (by decide)
  rw [h1, pyStrip_cons_space, hstripC]
  unfold pyInt
  rw [hstripC, hconsC]
  simp only [if_neg he1, if_neg he2, if_neg hall]

theorem diffstatOutput_both (i d : Nat) (hi : 0 < i) (hd : 0 < d) :
    diffstatOutput i d =
      wHdr ++ (reprNat (i + d) ++ (wSpace ++ (List.replicate i '+' ++ (List.replicate d '-' ++
        (wFileChanged ++ (wComma ++ (wSpace ++ (reprNat i ++ (wSpace ++ (wInsertion ++
        (insTail i ++ (wComma ++ (wSpace ++ (reprNat d ++ (wSpace ++ (wDeletion ++
        delTail d)))))))))))))))) := by
  unfold diffstatOutput
  rw [if_neg (by rintro ⟨h, -⟩; omega), if_pos hi, if_pos hd]
  simp [List.append_assoc]

theorem no_sSpace_both (i d : Nat) (hi : 0 < i) (hd : 0 < d) :
    ¬ ['s', ' '] <:+: diffstatOutput i d := by
  rw [diffstatOutput_both i d hi hd]
  refine notInfix_pair_chain (by decide) (Or.inl (by decide)) ?_
  refine notInfix_pair_chain (not_infix_of_not_mem 's' (by decide) (not_mem_reprNat (by decide) _))
    (Or.inl (getLast?_ne (not_mem_reprNat (by decide) _))) ?_
  refine notInfix_pair_chain (by decide) (Or.inl (by decide)) ?_
  refine notInfix_pair_chain (not_infix_of_not_mem 's' (by decide) (not_mem_replicate (by decide) i))
    (Or.inl (getLast?_ne (not_mem_replicate (by decide) i))) ?_
  refine notInfix_pair_chain (not_infix_of_not_mem 's' (by decide) (not_mem_replicate (by decide) d))
    (Or.inl (getLast?_ne (not_mem_replicate (by decide) d))) ?_
  refine notInfix_pair_chain (by decide) (Or.inl (by decide)) ?_
  refine notInfix_pair_chain (by decide) (Or.inl (by decide)) ?_
  refine notInfix_pair_chain (by decide) (Or.inl (by decide)) ?_
  refine notInfix_pair_chain (not_infix_of_not_mem 's' (by decide) (not_mem_reprNat (by decide) i))
    (Or.inl (getLast?_ne (not_mem_reprNat (by decide) i))) ?_
  refine notInfix_pair_chain (by decide) (Or.inl (by decide)) ?_
  refine notInfix_pair_chain (by decide) (Or.inl (by decide)) ?_
  refine notInfix_pair_chain (pair_notInfix_insTail (by decide) (by decide) i)
    (Or.inl (by rw [insTail_getLast]; decide)) ?_
  refine notInfix_pair_chain (by decide) (Or.inl (by decide)) ?_
  refine notInfix_pair_chain (by decide) (Or.inl (by decide)) ?_
  refine notInfix_pair_chain (not_infix_of_not_mem 's' (by decide) (not_mem_reprNat (by decide) d))
    (Or.inl (getLast?_ne (not_mem_reprNat (by decide) d))) ?_
  refine notInfix_pair_chain (by decide) (Or.inl (by decide)) ?_
  exact notInfix_pair_chain (by decide) (Or.inl (by decide))
    (pair_notInfix_delTail (by decide) (by decide) d)

theorem parse_both (i d : Nat) (hi : 0 < i) (hd : 0 < d) :
    parse_diffstat (diffstatOutput i d) = ((i : Int), 0) := by
  have hc0 : strContains (diffstatOutput i d) wZeroFiles = false :=
    decide_eq_false (fun h => no_sSpace_both i d hi hd
      ((by decide : ['s', ' '] <:+: wZeroFiles).trans h))
  have htPRE : ('t' : Char) ∉ wHdr ++ (reprNat (i + d) ++ (wSpace ++ (List.replicate i '+' ++
      (List.replicate d '-' ++ (wFileChanged ++ (wComma ++ (wSpace ++
      (reprNat i ++ wSpace)))))))) :=
    not_mem_append (by decide) (not_mem_append (not_mem_reprNat (by decide) _)
      (not_mem_append (by decide) (not_mem_append (not_mem_replicate (by decide) i)
      (not_mem_append (not_mem_replicate (by decide) d)
      (not_mem_append (by decide) (not_mem_append (by decide) (not_mem_append (by decide)
      (not_mem_append (not_mem_reprNat (by decide) i) (by decide)))))))))
  have hcI : strContains (diffstatOutput i d) wInsertion = true := by
    apply decide_eq_true
    rw [diffstatOutput_both i d hi hd]
    exact ⟨wHdr ++ (reprNat (i + d) ++ (wSpace ++ (List.replicate i '+' ++
      (List.replicate d '-' ++ (wFileChanged ++ (wComma ++ (wSpace ++
      (reprNat i ++ wSpace)))))))),
      insTail i ++ (wComma ++ (wSpace ++ (reprNat d ++ (wSpace ++ (wDeletion ++ delTail d))))),
      by simp [List.append_assoc]⟩
  have hcD : strContains (diffstatOutput i d) wDeletion = true := by
    apply decide_eq_true
    rw [diffstatOutput_both i d hi hd]
    exact ⟨wHdr ++ (reprNat (i + d) ++ (wSpace ++ (List.replicate i '+' ++
      (List.replicate d '-' ++ (wFileChanged ++ (wComma ++ (wSpace ++ (reprNat i ++
      (wSpace ++ (wInsertion ++ (insTail i ++ (wComma ++ (wSpace ++
      (reprNat d ++ wSpace)))))))))))))), delTail d,
      by simp [List.append_assoc]⟩
  have hsplitI : pySplit (diffstatOutput i d) wInsertion =
      [wHdr ++ (reprNat (i + d) ++ (wSpace ++ (List.replicate i '+' ++
        (List.replicate d '-' ++ (wFileChanged ++ (wComma ++ (wSpace ++
        (reprNat i ++ wSpace)))))))),
        insTail i ++ (wComma ++ (wSpace ++ (reprNat d ++ (wSpace ++ (wDeletion ++
          delTail d)))))] := by
    have hre : diffstatOutput i d =
        (wHdr ++ (reprNat (i + d) ++ (wSpace ++ (List.replicate i '+' ++
          (List.replicate d '-' ++ (wFileChanged ++ (wComma ++ (wSpace ++
          (reprNat i ++ wSpace))))))))) ++ wInsertion ++
          (insTail i ++ (wComma ++ (wSpace ++ (reprNat d ++ (wSpace ++ (wDeletion ++
            delTail d)))))) := by
      rw [diffstatOutput_both i d hi hd]
      simp [List.append_assoc]
    have hrpost : ('r' : Char) ∉ insTail i ++ (wComma ++ (wSpace ++ (reprNat d ++
        (wSpace ++ (wDeletion ++ delTail d))))) :=
      not_mem_append (not_mem_insTail (by decide) (by decide) i)
        (not_mem_append (by decide) (not_mem_append (by decide)
        (not_mem_append (not_mem_reprNat (by decide) d) (not_mem_append (by decide)
        (not_mem_append (by decide) (not_mem_delTail (by decide) (by decide) d))))))
    rw [hre, pySplit_eq_cons (by decide)
      (not_infix_of_not_mem 't' (by decide) htPRE) hover_insertion]
    rw [pySplit_eq_single (by decide) (not_infix_of_not_mem 'r' (by decide) hrpost)]
  have hsplitCI : pySplit (wHdr ++ (reprNat (i + d) ++ (wSpace ++ (List.replicate i '+' ++
      (List.replicate d '-' ++ (wFileChanged ++ (wComma ++ (wSpace ++
      (reprNat i ++ wSpace))))))))) wComma =
      [wHdr ++ (reprNat (i + d) ++ (wSpace ++ (List.replicate i '+' ++
        (List.replicate d '-' ++ wFileChanged)))), wSpace ++ (reprNat i ++ wSpace)] := by
    have hre : wHdr ++ (reprNat (i + d) ++ (wSpace ++ (List.replicate i '+' ++
        (List.replicate d '-' ++ (wFileChanged ++ (wComma ++ (wSpace ++
        (reprNat i ++ wSpace)))))))) =
        (wHdr ++ (reprNat (i + d) ++ (wSpace ++ (List.replicate i '+' ++
          (List.replicate d '-' ++ wFileChanged))))) ++ wComma ++
          (wSpace ++ (reprNat i ++ wSpace)) := by
      simp [List.append_assoc]
    have hcomA : (',' : Char) ∉ wHdr ++ (reprNat (i + d) ++ (wSpace ++
        (List.replicate i '+' ++ (List.replicate d '-' ++ wFileChanged)))) :=
      not_mem_append (by decide) (not_mem_append (not_mem_reprNat (by decide) _)
        (not_mem_append (by decide) (not_mem_append (not_mem_replicate (by decide) i)
        (not_mem_append (not_mem_replicate (by decide) d) (by decide)))))
    have hcomT : (',' : Char) ∉ wSpace ++ (reprNat i ++ wSpace) :=
      not_mem_append (by decide) (not_mem_append (not_mem_reprNat (by decide) i) (by decide))
    rw [hre, pySplit_eq_cons (by decide)
      (not_infix_of_not_mem ',' (by decide) hcomA) hover_comma]
    rw [pySplit_eq_single (by decide) (not_infix_of_not_mem ',' (by decide) hcomT)]
  have hintI : pyInt (pyStrip (wSpace ++ (reprNat i ++ wSpace))) = some ((i : Int)) := by
    have h1 : (wSpace ++ (reprNat i ++ wSpace) : PyStr) = [' '] ++ reprNat i ++ [' '] := by
      simp [wSpace, List.append_assoc]
    rw [h1, pyStrip_wrap (reprNat_ne_nil i) (fun c hc => reprNat_mem hc), pyInt_reprNat]
  have hdePRE : ¬ wDeletion <:+: wHdr ++ (reprNat (i + d) ++ (wSpace ++
      (List.replicate i '+' ++ (List.replicate d '-' ++ (wFileChanged ++ (wComma ++
      (wSpace ++ (reprNat i ++ (wSpace ++ (wInsertion ++ (insTail i ++ (wComma ++
      (wSpace ++ (reprNat d ++ wSpace)))))))))))))) := by
    intro h
    have hde := (by decide : ['d', 'e'] <:+: wDeletion).trans h
    revert hde
    refine notInfix_pair_chain (by decide) (Or.inl (by decide)) ?_
    refine notInfix_pair_chain (not_infix_of_not_mem 'd' (by decide) (not_mem_reprNat (by decide) _))
      (Or.inl (getLast?_ne (not_mem_reprNat (by decide) _))) ?_
    refine notInfix_pair_chain (by decide) (Or.inl (by decide)) ?_
    refine notInfix_pair_chain (not_infix_of_not_mem 'd' (by decide) (not_mem_replicate (by decide) i))
      (Or.inl (getLast?_ne (not_mem_replicate (by decide) i))) ?_
    refine notInfix_pair_chain (not_infix_of_not_mem 'd' (by decide) (not_mem_replicate (by decide) d))
      (Or.inl (getLast?_ne (not_mem_replicate (by decide) d))) ?_
    refine notInfix_pair_chain (by decide)
      (Or.inr (by rw [head?_append_left (by decide)]; decide)) ?_
    refine notInfix_pair_chain (by decide) (Or.inl (by decide)) ?_
    refine notInfix_pair_chain (by decide) (Or.inl (by decide)) ?_
    refine notInfix_pair_chain (not_infix_of_not_mem 'd' (by decide) (not_mem_reprNat (by decide) i))
      (Or.inl (getLast?_ne (not_mem_reprNat (by decide) i))) ?_
    refine notInfix_pair_chain (by decide) (Or.inl (by decide)) ?_
    refine notInfix_pair_chain (by decide) (Or.inl (by decide)) ?_
    refine notInfix_pair_chain (pair_notInfix_insTail (by decide) (by decide) i)
      (Or.inl (by rw [insTail_getLast]; decide)) ?_
    refine notInfix_pair_chain (by decide) (Or.inl (by decide)) ?_
    refine notInfix_pair_chain (by decide) (Or.inl (by decide)) ?_
    refine notInfix_pair_chain (not_infix_of_not_mem 'd' (by decide) (not_mem_reprNat (by decide) d))
      (Or.inl (getLast?_ne (not_mem_reprNat (by decide) d))) ?_
    exact (by decide)
  have hsplitD : pySplit (diffstatOutput i d) wDeletion =
      [wHdr ++ (reprNat (i + d) ++ (wSpace ++ (List.replicate i '+' ++
        (List.replicate d '-' ++ (wFileChanged ++ (wComma ++ (wSpace ++ (reprNat i ++
        (wSpace ++ (wInsertion ++ (insTail i ++ (wComma ++ (wSpace ++
        (reprNat d ++ wSpace)))))))))))))), delTail d] := by
    have hre : diffstatOutput i d =
        (wHdr ++ (reprNat (i + d) ++ (wSpace ++ (List.replicate i '+' ++
          (List.replicate d '-' ++ (wFileChanged ++ (wComma ++ (wSpace ++ (reprNat i ++
          (wSpace ++ (wInsertion ++ (insTail i ++ (wComma ++ (wSpace ++
          (reprNat d ++ wSpace))))))))))))))) ++ wDeletion ++ delTail d := by
      rw [diffstatOutput_both i d hi hd]
      simp [List.append_assoc]
    rw [hre, pySplit_eq_cons (by decide) hdePRE hover_deletion]
    rw [pySplit_eq_single (by decide) (by unfold delTail; split <;> decide)]
  have hcIpre : strContains (wHdr ++ (reprNat (i + d) ++ (wSpace ++ (List.replicate i '+' ++
      (List.replicate d '-' ++ (wFileChanged ++ (wComma ++ (wSpace ++ (reprNat i ++
      (wSpace ++ (wInsertion ++ (insTail i ++ (wComma ++ (wSpace ++
      (reprNat d ++ wSpace))))))))))))))) wInsertion = true := by
    apply decide_eq_true
    exact ⟨wHdr ++ (reprNat (i + d) ++ (wSpace ++ (List.replicate i '+' ++
      (List.replicate d '-' ++ (wFileChanged ++ (wComma ++ (wSpace ++
      (reprNat i ++ wSpace)))))))),
      insTail i ++ (wComma ++ (wSpace ++ (reprNat d ++ wSpace))),
      by simp [List.append_assoc]⟩
  have hsplitCD : pySplit (wHdr ++ (reprNat (i + d) ++ (wSpace ++ (List.replicate i '+' ++
      (List.replicate d '-' ++ (wFileChanged ++ (wComma ++ (wSpace ++ (reprNat i ++
      (wSpace ++ (wInsertion ++ (insTail i ++ (wComma ++ (wSpace ++
      (reprNat d ++ wSpace))))))))))))))) wComma =
      [wHdr ++ (reprNat (i + d) ++ (wSpace ++ (List.replicate i '+' ++
        (List.replicate d '-' ++ wFileChanged)))),
        wSpace ++ (reprNat i ++ (wSpace ++ (wInsertion ++ insTail i))),
        wSpace ++ (reprNat d ++ wSpace)] := by
    have hre : wHdr ++ (reprNat (i + d) ++ (wSpace ++ (List.replicate i '+' ++
        (List.replicate d '-' ++ (wFileChanged ++ (wComma ++ (wSpace ++ (reprNat i ++
        (wSpace ++ (wInsertion ++ (insTail i ++ (wComma ++ (wSpace ++
        (reprNat d ++ wSpace)))))))))))))) =
        (wHdr ++ (reprNat (i + d) ++ (wSpace ++ (List.replicate i '+' ++
          (List.replicate d '-' ++ wFileChanged))))) ++ wComma ++
          ((wSpace ++ (reprNat i ++ (wSpace ++ (wInsertion ++ insTail i)))) ++ wComma ++
            (wSpace ++ (reprNat d ++ wSpace))) := by
      simp [List.append_assoc]
    have hcomA : (',' : Char) ∉ wHdr ++ (reprNat (i + d) ++ (wSpace ++
        (List.replicate i '+' ++ (List.replicate d '-' ++ wFileChanged)))) :=
      not_mem_append (by decide) (not_mem_append (not_mem_reprNat (by decide) _)
        (not_mem_append (by decide) (not_mem_append (not_mem_replicate (by decide) i)
        (not_mem_append (not_mem_replicate (by decide) d) (by decide)))))
    have hcomT1 : (',' : Char) ∉ wSpace ++ (reprNat i ++ (wSpace ++ (wInsertion ++
        insTail i))) :=
      not_mem_append (by decide) (not_mem_append (not_mem_reprNat (by decide) i)
        (not_mem_append (by decide) (not_mem_append (by decide)
        (not_mem_insTail (by decide) (by decide) i))))
    have hcomT2 : (',' : Char) ∉ wSpace ++ (reprNat d ++ wSpace) :=
      not_mem_append (by decide) (not_mem_append (not_mem_reprNat (by decide) d) (by decide))
    rw [hre, pySplit_eq_cons (by decide)
      (not_infix_of_not_mem ',' (by decide) hcomA) hover_comma]
    rw [pySplit_eq_cons (by decide)
      (not_infix_of_not_mem ',' (by decide) hcomT1) hover_comma]
    rw [pySplit_eq_single (by decide) (not_infix_of_not_mem ',' (by decide) hcomT2)]
  unfold parse_diffstat
  rw [hc0, hcI, hcD]
  simp only [Bool.false_eq_true, if_false, if_true, hsplitI, List.headD_cons, hsplitCI,
    pyLast, List.getLastD_cons, List.getLastD_nil, hintI, hsplitD, hcIpre, hsplitCD]
  simp only [pyAt2, List.length_cons, List.length_nil]
  norm_num
  rw [pyInt_junk i]

/-- Main behaviour of the program's diffstat parser on real diffstat
summaries: the insertion count is recovered correctly, but whenever
insertions are present the deletion count is lost, because
`split("insertion")` makes `del_part.split(",")[-2]` the piece
`" N insertion(s)(+)"`, whose `int()` raises `ValueError`. -/
theorem parse_diffstatOutput (i d : Nat) :
    parse_diffstat (diffstatOutput i d) =
      if i = 0 then (0, (d : Int)) else ((i : Int), 0) := by
  rcases Nat.eq_zero_or_pos i with rfl | hi
  · rcases Nat.eq_zero_or_pos d with rfl | hd
    · decide
    · rw [parse_del d hd, if_pos rfl]
  · rcases Nat.eq_zero_or_pos d with rfl | hd
    · rw [parse_ins i hi, if_neg (by omega)]
    · rw [parse_both i d hi hd, if_neg (by omega)]

/-! ### Properties of the LCS length and the xxd projection -/

theorem lcsAux_nil_left (f : Nat) (B : List XxdLine) : lcsAux f [] B = 0 := by
  cases f <;> cases B <;> rfl

theorem lcsAux_nil_right (f : Nat) (A : List XxdLine) : lcsAux f A [] = 0 := by
  cases f <;> cases A <;> rfl

theorem lcsAux_cons (f : Nat) (a : XxdLine) (as : List XxdLine) (b : XxdLine)
    (bs : List XxdLine) :
    lcsAux (f + 1) (a :: as) (b :: bs) =
      if a = b then lcsAux f as bs + 1
      else max (lcsAux f (a :: as) bs) (lcsAux f as (b :: bs)) := rfl

theorem lcsAux_fuel : ∀ f g (A B : List XxdLine), A.length + B.length ≤ f →
    A.length + B.length ≤ g → lcsAux f A B = lcsAux g A B := by
  intro f
  induction f with
  | zero =>
    intro g A B hf _
    have hA : A = [] := List.length_eq_zero.mp (by omega)
    subst hA
    rw [lcsAux_nil_left, lcsAux_nil_left]
  | succ f ih =>
    intro g A B hf hg
    cases A with
    | nil => rw [lcsAux_nil_left, lcsAux_nil_left]
    | cons a as =>
      cases B with
      | nil => rw [lcsAux_nil_right, lcsAux_nil_right]
      | cons b bs =>
        cases g with
        | zero => simp at hg
        | succ g =>
          rw [lcsAux_cons, lcsAux_cons]
          simp only [List.length_cons] at hf hg
          by_cases hab : a = b
          · rw [if_pos hab, ih g as bs (by omega) (by omega), if_pos hab]
          · rw [if_neg hab, ih g (a :: as) bs (by simp; omega) (by simp; omega),
              ih g as (b :: bs) (by simp; omega) (by simp; omega), if_neg hab]

theorem lcsLen_nil_left (B : List XxdLine) : lcsLen [] B = 0 := lcsAux_nil_left _ B

theorem lcsLen_nil_right (A : List XxdLine) : lcsLen A [] = 0 := lcsAux_nil_right _ A

theorem lcsLen_cons (a : XxdLine) (as : List XxdLine) (b : XxdLine) (bs : List XxdLine) :
    lcsLen (a :: as) (b :: bs) =
      if a = b then lcsLen as bs + 1
      else max (lcsLen (a :: as) bs) (lcsLen as (b :: bs)) := by
  have h1 : (a :: as).length + (b :: bs).length = (as.length + bs.length) + 1 + 1 := by
    simp; omega
  unfold lcsLen
  rw [h1, lcsAux_cons]
  by_cases hab : a = b
  · rw [if_pos hab, if_pos hab,
      lcsAux_fuel (as.length + bs.length + 1) (as.length + bs.length) as bs (by omega) le_rfl]
  · rw [if_neg hab, if_neg hab,
      lcsAux_fuel (as.length + bs.length + 1) ((a :: as).length + bs.length) (a :: as) bs
        (by simp; omega) (by simp),
      lcsAux_fuel (as.length + bs.length + 1) (as.length + (b :: bs).length) as (b :: bs)
        (by simp; omega) (by simp)]

theorem lcsLen_le : ∀ n (A B : List XxdLine), A.length + B.length ≤ n →
    lcsLen A B ≤ A.length ∧ lcsLen A B ≤ B.length := by
  intro n
  induction n with
  | zero =>
    intro A B h
    have hA : A = [] := List.length_eq_zero.mp (by omega)
    subst hA
    simp [lcsLen_nil_left]
  | succ n ih =>
    intro A B h
    cases A with
    | nil => simp [lcsLen_nil_left]
    | cons a as =>
      cases B with
      | nil => simp [lcsLen_nil_right]
      | cons b bs =>
        rw [lcsLen_cons]
        simp only [List.length_cons] at h ⊢
        by_cases hab : a = b
        · rw [if_pos hab]
          have := ih as bs (by omega)
          omega
        · rw [if_neg hab]
          have h1 := ih (a :: as) bs (by simp; omega)
          have h2 := ih as (b :: bs) (by simp; omega)
          simp only [List.length_cons] at h1 h2
          constructor
          · exact Nat.max_le.mpr ⟨h1.1, by omega⟩
          · exact Nat.max_le.mpr ⟨by omega, h2.2⟩

theorem lcsLen_self : ∀ A : List XxdLine, lcsLen A A = A.length := by
  intro A
  induction A with
  | nil => exact lcsLen_nil_left []
  | cons a as ih => rw [lcsLen_cons, if_pos rfl, ih]; rfl

theorem eq_of_lcsLen_eq : ∀ n (A B : List XxdLine), A.length + B.length ≤ n →
    lcsLen A B = A.length → lcsLen A B = B.length → A = B := by
  intro n
  induction n with
  | zero =>
    intro A B h h1 h2
    have hA : A = [] := List.length_eq_zero.mp (by omega)
    have hB : B = [] := List.length_eq_zero.mp (by omega)
    rw [hA, hB]
  | succ n ih =>
    intro A B h h1 h2
    cases A with
    | nil =>
      rw [lcsLen_nil_left] at h2
      rw [List.length_eq_zero.mp h2.symm]
    | cons a as =>
      cases B with
      | nil =>
        rw [lcsLen_nil_right] at h1
        exact absurd h1.symm (by simp)
      | cons b bs =>
        rw [lcsLen_cons] at h1 h2
        by_cases hab : a = b
        · rw [if_pos hab] at h1 h2
          subst hab
          simp only [List.length_cons, Nat.add_right_cancel_iff] at h1 h2
          rw [ih as bs (by simp at h; omega) h1 h2]
        · rw [if_neg hab] at h1 h2
          have hu := (lcsLen_le ((a :: as).length + bs.length) (a :: as) bs le_rfl).2
          have hv := (lcsLen_le (as.length + (b :: bs).length) as (b :: bs) le_rfl).1
          simp only [List.length_cons] at h1 h2 hu hv ⊢
          have hmax : max (lcsLen (a :: as) bs) (lcsLen as (b :: bs)) ≤
              max bs.length as.length := by
            exact Nat.max_le.mpr ⟨le_trans hu (Nat.le_max_left _ _),
              le_trans hv (Nat.le_max_right _ _)⟩
          omega

theorem chunksOf16Aux_join : ∀ f (bs : List Byte), bs.length ≤ f →
    (chunksOf16Aux f bs).flatten = bs := by
  intro f
  induction f with
  | zero =>
    intro bs h
    have hb : bs = [] := List.length_eq_zero.mp (by omega)
    subst hb
    rfl
  | succ f ih =>
    intro bs h
    cases bs with
    | nil => rfl
    | cons x xs =>
      show ((x :: xs).take 16 :: chunksOf16Aux f ((x :: xs).drop 16)).flatten = x :: xs
      rw [List.flatten_cons, ih ((x :: xs).drop 16) (by simp [List.length_drop] at h ⊢; omega)]
      exact List.take_append_drop 16 (x :: xs)

theorem chunksOf16_join (bs : List Byte) : (chunksOf16 bs).flatten = bs :=
  chunksOf16Aux_join bs.length bs le_rfl

theorem xxdLines_chunks (bs : List Byte) :
    (xxdLines bs).map XxdLine.chunk = chunksOf16 bs := by
  unfold xxdLines
  rw [List.map_map]
  have h : (XxdLine.chunk ∘ fun p : Nat × List Byte => XxdLine.mk (16 * p.1) p.2) =
      Prod.snd := rfl
  rw [h, List.enum_map_snd]

theorem xxdLines_injective {X Y : List Byte} (h : xxdLines X = xxdLines Y) : X = Y := by
  have hX := chunksOf16_join X
  have hY := chunksOf16_join Y
  rw [← xxdLines_chunks] at hX hY
  rw [← hX, ← hY, h]

/-! ### The file comparator on equal, distinct and one-sided contents -/

theorem diffCounts_self (A : List XxdLine) : diffCounts A A = (0, 0) := by
  unfold diffCounts
  rw [lcsLen_self]
  simp

theorem compareFile_self (X : List Byte) :
    compareFile (some X) (some X) = (statusUnchanged, (0, 0)) := by
  unfold compareFile
  have h1 : run_xxd_diff (some X) (some X) = diffstatOutput 0 0 := by
    show diffstatOutput (diffCounts (xxdLines X) (xxdLines X)).1
      (diffCounts (xxdLines X) (xxdLines X)).2 = diffstatOutput 0 0
    rw [diffCounts_self]
  rw [h1, parse_diffstatOutput]
  simp

theorem lineDiff_nil_left {B : List XxdLine} (hB : B ≠ []) :
    lineDiff [] B = ((B.length : Int), 0) := by
  unfold lineDiff
  have h1 : diffCounts [] B = (B.length, 0) := by
    unfold diffCounts
    rw [lcsLen_nil_left]
    simp
  rw [h1]
  show parse_diffstat (diffstatOutput B.length 0) = _
  rw [parse_diffstatOutput, if_neg (fun h0 => hB (List.length_eq_zero.mp h0))]

theorem lineDiff_nil_right (A : List XxdLine) :
    lineDiff A [] = (0, (A.length : Int)) := by
  unfold lineDiff
  have h1 : diffCounts A [] = (0, A.length) := by
    unfold diffCounts
    rw [lcsLen_nil_right]
    simp
  rw [h1]
  show parse_diffstat (diffstatOutput 0 A.length) = _
  rw [parse_diffstatOutput, if_pos rfl]

theorem compareFile_ne {X Y : List Byte} (h : X ≠ Y) :
    ∃ ins del : Int, compareFile (some X) (some Y) = (statusChanged, (ins, del)) ∧
      0 < ins + del := by
  have hAB : xxdLines X ≠ xxdLines Y := fun he => h (xxdLines_injective he)
  have hle := lcsLen_le ((xxdLines X).length + (xxdLines Y).length)
    (xxdLines X) (xxdLines Y) le_rfl
  have hpd : parse_diffstat (run_xxd_diff (some X) (some Y)) =
      if (xxdLines Y).length - lcsLen (xxdLines X) (xxdLines Y) = 0 then
        (0, (((xxdLines X).length - lcsLen (xxdLines X) (xxdLines Y) : Nat) : Int))
      else ((((xxdLines Y).length - lcsLen (xxdLines X) (xxdLines Y) : Nat) : Int), 0) := by
    show parse_diffstat (diffstatOutput
      ((xxdLines Y).length - lcsLen (xxdLines X) (xxdLines Y))
      ((xxdLines X).length - lcsLen (xxdLines X) (xxdLines Y))) = _
    exact parse_diffstatOutput _ _
  have hnz : ¬ ((xxdLines Y).length - lcsLen (xxdLines X) (xxdLines Y) = 0 ∧
      (xxdLines X).length - lcsLen (xxdLines X) (xxdLines Y) = 0) := by
    rintro ⟨h1, h2⟩
    exact hAB (eq_of_lcsLen_eq ((xxdLines X).length + (xxdLines Y).length)
      (xxdLines X) (xxdLines Y) le_rfl (by omega) (by omega))
  by_cases hi : (xxdLines Y).length - lcsLen (xxdLines X) (xxdLines Y) = 0
  · have hd : 0 < (xxdLines X).length - lcsLen (xxdLines X) (xxdLines Y) := by
      rcases Nat.eq_zero_or_pos ((xxdLines X).length - lcsLen (xxdLines X) (xxdLines Y)) with
        h0 | h0
      · exact absurd ⟨hi, h0⟩ hnz
      · exact h0
    refine ⟨0, (((xxdLines X).length - lcsLen (xxdLines X) (xxdLines Y) : Nat) : Int),
      ?_, by omega⟩
    unfold compareFile
    rw [hpd, if_pos hi]
    rw [if_pos (Or.inr (by simp only []; exact_mod_cast hd))]
  · have hi' : 0 < (xxdLines Y).length - lcsLen (xxdLines X) (xxdLines Y) := by omega
    refine ⟨(((xxdLines Y).length - lcsLen (xxdLines X) (xxdLines Y) : Nat) : Int), 0,
      ?_, by omega⟩
    unfold compareFile
    rw [hpd, if_neg hi]
    rw [if_pos (Or.inl (by simp only []; exact_mod_cast hi'))]

theorem compareFile_error_left (c2 : Option (List Byte)) :
    compareFile none c2 = (statusUnchanged, (0, 0)) := by
  cases c2 <;> rfl

theorem compareFile_error_right (c1 : Option (List Byte)) :
    compareFile c1 none = (statusUnchanged, (0, 0)) := by
  cases c1 <;> rfl

/-! ### Claim theorems for the comparator pipeline -/

set_option maxRecDepth 10000

/-- C1: for old content = 100 zero bytes and new content = the same
bytes with offset 50 changed to 0xFF, the modelled diff of the xxd
projections indeed consists of one replaced chunk-line (1 insertion
and 1 deletion, as diffstat reports), but the program's
`parse_diffstat` loses the deletion count (its `[-2]` indexing makes
`int()` fail), so the comparator reports status `changed` with
magnitude `(1, 0)` instead of the claimed `(1, 1)`. -/
theorem c1_one_byte_change_evaluation :
    diffCounts (xxdLines (List.replicate 100 0))
        (xxdLines ((List.replicate 100 0).set 50 255)) = (1, 1) ∧
      compareFile (some (List.replicate 100 0))
        (some ((List.replicate 100 0).set 50 255)) = (statusChanged, (1, 0)) := by
  constructor
  · decide
  · decide

/-- C6: comparing a file content against itself always yields status
`unchanged` with magnitude `(0, 0)`. -/
theorem c6_self_diff_unchanged (X : List Byte) :
    compareFile (some X) (some X) = (statusUnchanged, (0, 0)) :=
  compareFile_self X

/-- C4: comparing two distinct byte contents always yields status
`changed` with a positive total line-diff count (the xxd projection is
injective, so the projections differ and the minimal line diff is
non-empty; the surviving parsed count is positive). -/
theorem c4_distinct_contents_changed {X Y : List Byte} (h : X ≠ Y) :
    ∃ ins del : Int, compareFile (some X) (some Y) = (statusChanged, (ins, del)) ∧
      0 < ins + del :=
  compareFile_ne h

/-- Witness for C4 at concrete distinct contents `[]` and `[0]`. -/
theorem c4_distinct_contents_changed_witness :
    ([] : List Byte) ≠ [0] ∧
      (∃ ins del : Int, compareFile (some ([] : List Byte)) (some [0]) =
        (statusChanged, (ins, del)) ∧ 0 < ins + del) :=
  ⟨by decide, c4_distinct_contents_changed (by decide)⟩

/-- C7: the composite line-diff engine (external diff/diffstat plus
`parse_diffstat`) maps an empty old line sequence to
`(len B, 0)` (all of B counted as insertions) and an empty new line
sequence to `(0, len A)` (all of A counted as deletions). -/
theorem c7_empty_side_line_diff (A B : List XxdLine) (hA : A ≠ []) (hB : B ≠ []) :
    lineDiff [] B = ((B.length : Int), 0) ∧ lineDiff A [] = (0, (A.length : Int)) :=
  ⟨lineDiff_nil_left hB, lineDiff_nil_right A⟩

/-- Witness for C7 at concrete one-line sequences. -/
theorem c7_empty_side_line_diff_witness :
    ([⟨0, [0]⟩] : List XxdLine) ≠ [] ∧ ([⟨0, [1]⟩] : List XxdLine) ≠ [] ∧
      (lineDiff [] [⟨0, [1]⟩] = (1, 0) ∧ lineDiff [⟨0, [0]⟩] [] = (0, 1)) :=
  ⟨by decide, by decide,
    c7_empty_side_line_diff [⟨0, [0]⟩] [⟨0, [1]⟩] (by decide) (by decide)⟩

/-! ### Properties of the string order and of insertion sort -/

theorem strLt_cons (a : Char) (as : PyStr) (b : Char) (bs : PyStr) :
    strLt (a :: as) (b :: bs) =
      if a < b then true else if a = b then strLt as bs else false := rfl

theorem strLt_irrefl : ∀ s : PyStr, strLt s s = false := by
  intro s
  induction s with
  | nil => rfl
  | cons a as ih =>
    rw [strLt_cons, if_neg (lt_irrefl a), if_pos rfl, ih]

theorem strLt_asymm : ∀ a b : PyStr, strLt a b = true → strLt b a = true → False := by
  intro a
  induction a with
  | nil =>
    intro b h1 h2
    cases b with
    | nil => simp [strLt] at h1
    | cons x xs => simp [strLt] at h2
  | cons x xs ih =>
    intro b h1 h2
    cases b with
    | nil => simp [strLt] at h1
    | cons y ys =>
      rw [strLt_cons] at h1 h2
      by_cases hxy : x < y
      · rw [if_pos hxy] at h1
        rw [if_neg (not_lt_of_gt hxy),
          if_neg (fun h => absurd hxy (by rw [h]; exact lt_irrefl x))] at h2
        cases h2
      · rw [if_neg hxy] at h1
        by_cases hxy2 : x = y
        · subst hxy2
          rw [if_pos rfl] at h1
          rw [if_neg hxy, if_pos rfl] at h2
          exact ih ys h1 h2
        · rw [if_neg hxy2] at h1
          cases h1

theorem strLt_trans : ∀ a b c : PyStr, strLt a b = true → strLt b c = true →
    strLt a c = true := by
  intro a
  induction a with
  | nil =>
    intro b c h1 h2
    cases b with
    | nil => simp [strLt] at h1
    | cons y ys =>
      cases c with
      | nil => simp [strLt] at h2
      | cons z zs => rfl
  | cons x xs ih =>
    intro b c h1 h2
    cases b with
    | nil => simp [strLt] at h1
    | cons y ys =>
      cases c with
      | nil => simp [strLt] at h2
      | cons z zs =>
        rw [strLt_cons] at h1 h2 ⊢
        by_cases hxy : x < y
        · by_cases hyz : y < z
          · rw [if_pos (lt_trans hxy hyz)]
          · rw [if_neg hyz] at h2
            by_cases hyz2 : y = z
            · subst hyz2
              rw [if_pos hxy]
            · rw [if_neg hyz2] at h2
              cases h2
        · rw [if_neg hxy] at h1
          by_cases hxy2 : x = y
          · subst hxy2
            rw [if_pos rfl] at h1
            by_cases hyz : x < z
            · rw [if_pos hyz]
            · rw [if_neg hyz] at h2 ⊢
              by_cases hyz2 : x = z
              · subst hyz2
                rw [if_pos rfl] at h2 ⊢
                exact ih ys zs h1 h2
              · rw [if_neg hyz2] at h2
                cases h2
          · rw [if_neg hxy2] at h1
            cases h1

theorem strLt_total : ∀ a b : PyStr, strLt a b = true ∨ a = b ∨ strLt b a = true := by
  intro a
  induction a with
  | nil =>
    intro b
    cases b with
    | nil => exact Or.inr (Or.inl rfl)
    | cons y ys => exact Or.inl rfl
  | cons x xs ih =>
    intro b
    cases b with
    | nil => exact Or.inr (Or.inr rfl)
    | cons y ys =>
      rcases lt_trichotomy x y with h | h | h
      · exact Or.inl (by rw [strLt_cons, if_pos h])
      · subst h
        rcases ih ys with h1 | h1 | h1
        · exact Or.inl (by rw [strLt_cons, if_neg (lt_irrefl x), if_pos rfl]; exact h1)
        · exact Or.inr (Or.inl (by rw [h1]))
        · exact Or.inr (Or.inr (by rw [strLt_cons, if_neg (lt_irrefl x), if_pos rfl]; exact h1))
      · exact Or.inr (Or.inr (by rw [strLt_cons, if_pos h]))

theorem strLe_total : ∀ a b : PyStr, strLe a b = true ∨ strLe b a = true := by
  intro a b
  unfold strLe
  rcases strLt_total a b with h | h | h
  · exact Or.inl (by rw [h]; rfl)
  · subst h
    exact Or.inl (by simp)
  · exact Or.inr (by rw [h]; rfl)

theorem strLe_trans : ∀ a b c : PyStr, strLe a b = true → strLe b c = true →
    strLe a c = true := by
  intro a b c h1 h2
  unfold strLe at h1 h2 ⊢
  rcases Bool.or_eq_true_iff.mp h1 with h1' | h1'
  · rcases Bool.or_eq_true_iff.mp h2 with h2' | h2'
    · rw [strLt_trans a b c h1' h2']; rfl
    · have : b = c := of_decide_eq_true h2'
      subst this
      rw [h1']; rfl
  · have : a = b := of_decide_eq_true h1'
    subst this
    exact h2

theorem strLe_of_strLt {a b : PyStr} (h : strLt a b = true) : strLe a b = true := by
  unfold strLe
  rw [h]; rfl

theorem strLt_of_strLe_ne {a b : PyStr} (h : strLe a b = true) (hne : a ≠ b) :
    strLt a b = true := by
  unfold strLe at h
  rcases Bool.or_eq_true_iff.mp h with h' | h'
  · exact h'
  · exact absurd (of_decide_eq_true h') hne

theorem strLt_append : ∀ (p x : PyStr), x ≠ [] → strLt p (p ++ x) = true := by
  intro p
  induction p with
  | nil =>
    intro x hx
    obtain ⟨c, t, rfl⟩ := List.exists_cons_of_ne_nil hx
    rfl
  | cons a as ih =>
    intro x hx
    rw [List.cons_append, strLt_cons, if_neg (lt_irrefl a), if_pos rfl]
    exact ih x hx

theorem mem_insSorted {α : Type} (le : α → α → Bool) (a y : α) :
    ∀ l : List α, y ∈ insSorted le a l ↔ y = a ∨ y ∈ l := by
  intro l
  induction l with
  | nil => simp [insSorted]
  | cons x xs ih =>
    show y ∈ (if le a x then a :: x :: xs else x :: insSorted le a xs) ↔ _
    by_cases h : le a x
    · rw [if_pos h]
      simp
    · rw [if_neg h]
      simp only [List.mem_cons, ih]
      tauto

theorem perm_insSorted {α : Type} (le : α → α → Bool) (a : α) :
    ∀ l : List α, List.Perm (insSorted le a l) (a :: l) := by
  intro l
  induction l with
  | nil => exact List.Perm.refl _
  | cons x xs ih =>
    show List.Perm (if le a x then a :: x :: xs else x :: insSorted le a xs) _
    by_cases h : le a x
    · rw [if_pos h]
    · rw [if_neg h]
      exact ((ih.cons x).trans (List.Perm.swap a x xs)).symm.symm

theorem perm_insertionSort {α : Type} (le : α → α → Bool) :
    ∀ l : List α, List.Perm (insertionSort le l) l := by
  intro l
  induction l with
  | nil => exact List.Perm.refl _
  | cons a l ih =>
    exact (perm_insSorted le a (insertionSort le l)).trans (ih.cons a)

theorem pairwise_insSorted {α : Type} (le : α → α → Bool)
    (htot : ∀ a b : α, le a b = true ∨ le b a = true)
    (htrans : ∀ a b c : α, le a b = true → le b c = true → le a c = true) (a : α) :
    ∀ l : List α, l.Pairwise (fun x y => le x y = true) →
      (insSorted le a l).Pairwise (fun x y => le x y = true) := by
  intro l
  induction l with
  | nil => intro h; simp [insSorted]
  | cons x xs ih =>
    intro h
    show (if le a x then a :: x :: xs else x :: insSorted le a xs).Pairwise _
    rcases List.pairwise_cons.mp h with ⟨hx, hxs⟩
    by_cases hax : le a x
    · rw [if_pos hax]
      refine List.pairwise_cons.mpr ⟨?_, h⟩
      intro y hy
      rcases List.mem_cons.mp hy with rfl | hy'
      · exact hax
      · exact htrans a x y hax (hx y hy')
    · rw [if_neg hax]
      refine List.pairwise_cons.mpr ⟨?_, ih hxs⟩
      intro y hy
      rcases (mem_insSorted le a y xs).mp hy with hya | hy'
      · rw [hya]
        rcases htot a x with h' | h'
        · exact absurd h' hax
        · exact h'
      · exact hx y hy'

theorem pairwise_insertionSort {α : Type} (le : α → α → Bool)
    (htot : ∀ a b : α, le a b = true ∨ le b a = true)
    (htrans : ∀ a b c : α, le a b = true → le b c = true → le a c = true) :
    ∀ l : List α, (insertionSort le l).Pairwise (fun x y => le x y = true) := by
  intro l
  induction l with
  | nil => exact List.Pairwise.nil
  | cons a l ih => exact pairwise_insSorted le htot htrans a (insertionSort le l) ih

/-! ### Path splitting and joining -/

theorem pySplitAux_ne_nil (s0 : Char) (sr : PyStr) :
    ∀ (s : PyStr) f acc, pySplitAux s0 sr f s acc ≠ [] := by
  intro s
  induction s with
  | nil => intro f acc; rw [pySplitAux_nil]; simp
  | cons x rest ih =>
    intro f acc
    cases f with
    | zero => simp [pySplitAux]
    | succ f =>
      rw [pySplitAux_cons]
      by_cases h : x = s0 ∧ sr.isPrefixOf rest
      · rw [if_pos h]; simp
      · rw [if_neg h]; exact ih f (x :: acc)

theorem pathParts_ne_nil (p : PyStr) : pathParts p ≠ [] :=
  pySplitAux_ne_nil '/' [] p p.length []

theorem joinParts_cons₂ (sep x : PyStr) (y : PyStr) (t : List PyStr) :
    joinParts sep (x :: y :: t) = x ++ sep ++ joinParts sep (y :: t) := rfl

theorem joinParts_pySplitAux (c : Char) :
    ∀ (s : PyStr) f acc, s.length ≤ f →
      joinParts [c] (pySplitAux c [] f s acc) = acc.reverse ++ s := by
  intro s
  induction s with
  | nil =>
    intro f acc _
    rw [pySplitAux_nil]
    show acc.reverse = acc.reverse ++ []
    simp
  | cons x rest ih =>
    intro f acc hf
    cases f with
    | zero => simp at hf
    | succ f =>
      rw [pySplitAux_cons]
      by_cases hx : x = c
      · rw [if_pos ⟨hx, List.isPrefixOf_iff_prefix.mpr ⟨rest, rfl⟩⟩]
        simp only [List.length_nil, List.drop_zero]
        obtain ⟨y, ys, hys⟩ := List.exists_cons_of_ne_nil (pySplitAux_ne_nil c [] rest f [])
        rw [hys, joinParts_cons₂, ← hys,
          ih f [] (by simp only [List.length_cons] at hf; omega)]
        simp [hx]
      · rw [if_neg (fun hcon => hx hcon.1),
          ih f (x :: acc) (by simp only [List.length_cons] at hf; omega)]
        simp

theorem joinParts_pathParts (p : PyStr) : joinParts wSlash (pathParts p) = p := by
  show joinParts ['/'] (pySplitAux '/' [] p.length p []) = p
  have h := joinParts_pySplitAux '/' p p.length [] le_rfl
  simpa using h

theorem pathParts_injective {p q : PyStr} (h : pathParts p = pathParts q) : p = q := by
  have h1 := joinParts_pathParts p
  rw [h, joinParts_pathParts q] at h1
  exact h1.symm

theorem joinParts_append (sep : PyStr) : ∀ (xs ys : List PyStr), xs ≠ [] → ys ≠ [] →
    joinParts sep (xs ++ ys) = joinParts sep xs ++ sep ++ joinParts sep ys := by
  intro xs
  induction xs with
  | nil => intro ys h; exact absurd rfl h
  | cons x xs' ih =>
    intro ys _ hys
    cases xs' with
    | nil =>
      obtain ⟨y, yt, rfl⟩ := List.exists_cons_of_ne_nil hys
      rfl
    | cons x2 xt =>
      rw [List.cons_append, List.cons_append, joinParts_cons₂, ← List.cons_append,
        ih ys (by simp) hys, joinParts_cons₂]
      simp [List.append_assoc]

theorem strLt_of_parts_before {p q : PyStr} (h : pathParts p <+: pathParts q) (hne : p ≠ q) :
    strLt p q = true := by
  obtain ⟨r, hr⟩ := h
  have hrne : r ≠ [] := by
    rintro rfl
    exact hne (pathParts_injective (by rw [← hr, List.append_nil]))
  have hq : q = p ++ (wSlash ++ joinParts wSlash r) := by
    have h1 := joinParts_pathParts q
    rw [← hr, joinParts_append wSlash _ _ (pathParts_ne_nil p) hrne,
      joinParts_pathParts p] at h1
    rw [← h1]
    simp [List.append_assoc]
  rw [hq]
  exact strLt_append p _ (by simp [wSlash])

/-! ### Dictionary and tree lemmas -/

theorem dictGet_dictSet_self (k : PyStr) (v : Node) :
    ∀ t : Children, dictGet k (dictSet k v t) = some v
  | .nil => by
    show (if k = k then some v else none) = some v
    rw [if_pos rfl]
  | .cons k' n rest => by
    show dictGet k (if k' = k then .cons k v rest else .cons k' n (dictSet k v rest)) = some v
    by_cases h : k' = k
    · rw [if_pos h]
      show (if k = k then some v else dictGet k rest) = some v
      rw [if_pos rfl]
    · rw [if_neg h]
      show (if k' = k then some n else dictGet k (dictSet k v rest)) = some v
      rw [if_neg h]
      exact dictGet_dictSet_self k v rest

theorem dictGet_dictSet_ne {kq kset : PyStr} (h : kq ≠ kset) (v : Node) :
    ∀ t : Children, dictGet kq (dictSet kset v t) = dictGet kq t
  | .nil => by
    show (if kset = kq then some v else none) = none
    rw [if_neg (fun hh => h hh.symm)]
  | .cons k2 n rest => by
    show dictGet kq (if k2 = kset then .cons kset v rest else .cons k2 n (dictSet kset v rest)) = _
    by_cases h2 : k2 = kset
    · subst h2
      rw [if_pos rfl]
      show (if k2 = kq then some v else dictGet kq rest) =
        (if k2 = kq then some n else dictGet kq rest)
      rw [if_neg (fun hh => h hh.symm), if_neg (fun hh => h hh.symm)]
    · rw [if_neg h2]
      show (if k2 = kq then some n else dictGet kq (dictSet kset v rest)) =
        (if k2 = kq then some n else dictGet kq rest)
      by_cases h3 : k2 = kq
      · rw [if_pos h3, if_pos h3]
      · rw [if_neg h3, if_neg h3, dictGet_dictSet_ne h v rest]

theorem keyAbsent_dictGet {k : PyStr} : ∀ {t : Children}, keyAbsent k t → dictGet k t = none
  | .nil, _ => rfl
  | .cons k' n rest, h => by
    obtain ⟨h1, h2⟩ := h
    show (if k' = k then some n else dictGet k rest) = none
    rw [if_neg h1]
    exact keyAbsent_dictGet h2

theorem keyAbsent_dictSet {k' k : PyStr} (h : k' ≠ k) (v : Node) :
    ∀ t : Children, keyAbsent k' t → keyAbsent k' (dictSet k v t)
  | .nil, _ => by
    show k ≠ k' ∧ True
    exact ⟨fun hh => h hh.symm, trivial⟩
  | .cons k2 n rest, hab => by
    obtain ⟨h1, h2⟩ := hab
    show keyAbsent k' (if k2 = k then .cons k v rest else .cons k2 n (dictSet k v rest))
    by_cases hk : k2 = k
    · rw [if_pos hk]
      exact ⟨fun hh => h hh.symm, h2⟩
    · rw [if_neg hk]
      exact ⟨h1, keyAbsent_dictSet h v rest h2⟩

theorem WFn_of_dictGet {k : PyStr} : ∀ {t : Children} {n : Node},
    WFc t → dictGet k t = some n → WFn n
  | .nil, n, _, h => by cases h
  | .cons k' m rest, n, hwf, h => by
    obtain ⟨ha, hm, hr⟩ := hwf
    have h' : (if k' = k then some m else dictGet k rest) = some n := h
    by_cases hk : k' = k
    · rw [if_pos hk] at h'
      cases Option.some.inj h'
      exact hm
    · rw [if_neg hk] at h'
      exact WFn_of_dictGet hr h'

theorem WFc_dictSet {k : PyStr} {v : Node} (hv : WFn v) :
    ∀ {t : Children}, WFc t → WFc (dictSet k v t)
  | .nil, _ => by
    show keyAbsent k Children.nil ∧ WFn v ∧ WFc Children.nil
    exact ⟨trivial, hv, trivial⟩
  | .cons k' n rest, hwf => by
    obtain ⟨ha, hn, hr⟩ := hwf
    show WFc (if k' = k then .cons k v rest else .cons k' n (dictSet k v rest))
    by_cases hk : k' = k
    · rw [if_pos hk]
      exact ⟨hk ▸ ha, hv, hr⟩
    · rw [if_neg hk]
      exact ⟨keyAbsent_dictSet hk v rest ha, hn, WFc_dictSet hv hr⟩

theorem lookupChain_nil_chain (t : Children) : lookupChain t [] = none := rfl

theorem lookupChain_single (t : Children) (k : PyStr) : lookupChain t [k] = dictGet k t := rfl

theorem lookupChain_nil_tree : ∀ c : List PyStr, lookupChain Children.nil c = none
  | [] => rfl
  | [_] => rfl
  | _ :: _ :: _ => rfl

theorem lookupChain_cons_dir {t : Children} {k : PyStr} {ch : Children}
    (h : dictGet k t = some (Node.dir ch)) (r : PyStr) (rs : List PyStr) :
    lookupChain t (k :: r :: rs) = lookupChain ch (r :: rs) := by
  show (match dictGet k t with
    | some (Node.dir ch) => lookupChain ch (r :: rs)
    | _ => none) = _
  rw [h]

theorem lookupChain_cons_file {t : Children} {k : PyStr} {s : String} {c0 : Int × Int}
    (h : dictGet k t = some (Node.file s c0)) (r : PyStr) (rs : List PyStr) :
    lookupChain t (k :: r :: rs) = none := by
  show (match dictGet k t with
    | some (Node.dir ch) => lookupChain ch (r :: rs)
    | _ => none) = _
  rw [h]

theorem lookupChain_cons_none {t : Children} {k : PyStr}
    (h : dictGet k t = none) (r : PyStr) (rs : List PyStr) :
    lookupChain t (k :: r :: rs) = none := by
  show (match dictGet k t with
    | some (Node.dir ch) => lookupChain ch (r :: rs)
    | _ => none) = _
  rw [h]

theorem isFileAt_nil_chain (t : Children) : ¬ isFileAt t [] := by
  rintro ⟨s, ch, h⟩
  rw [lookupChain_nil_chain] at h
  cases h

theorem isFileAt_nil_tree (c : List PyStr) : ¬ isFileAt Children.nil c := by
  rintro ⟨s, ch, h⟩
  rw [lookupChain_nil_tree] at h
  cases h

theorem insertPath_cons (t : Children) (k r : PyStr) (rs : List PyStr) (leaf : Node) :
    insertPath t (k :: r :: rs) leaf =
      match dictGet k t with
      | some (Node.file _ _) => none
      | some (Node.dir ch) =>
        (insertPath ch (r :: rs) leaf).map (fun ch' => dictSet k (Node.dir ch') t)
      | none =>
        (insertPath Children.nil (r :: rs) leaf).map (fun ch' => dictSet k (Node.dir ch') t) :=
  rfl

theorem insertPath_cons_file {t : Children} {k : PyStr} {s : String} {c0 : Int × Int}
    (h : dictGet k t = some (Node.file s c0)) (r : PyStr) (rs : List PyStr) (leaf : Node) :
    insertPath t (k :: r :: rs) leaf = none := by
  rw [insertPath_cons, h]

theorem insertPath_cons_dir {t : Children} {k : PyStr} {ch : Children}
    (h : dictGet k t = some (Node.dir ch)) (r : PyStr) (rs : List PyStr) (leaf : Node) :
    insertPath t (k :: r :: rs) leaf =
      (insertPath ch (r :: rs) leaf).map (fun ch' => dictSet k (Node.dir ch') t) := by
  rw [insertPath_cons, h]

theorem insertPath_cons_none {t : Children} {k : PyStr}
    (h : dictGet k t = none) (r : PyStr) (rs : List PyStr) (leaf : Node) :
    insertPath t (k :: r :: rs) leaf =
      (insertPath Children.nil (r :: rs) leaf).map (fun ch' => dictSet k (Node.dir ch') t) := by
  rw [insertPath_cons, h]

theorem lookupChain_dictSet_ne {k₁ k : PyStr} (hk : k₁ ≠ k) (v : Node) (t : Children) :
    ∀ cr, lookupChain (dictSet k v t) (k₁ :: cr) = lookupChain t (k₁ :: cr) := by
  intro cr
  rcases cr with - | ⟨c1, cr'⟩
  · rw [lookupChain_single, lookupChain_single, dictGet_dictSet_ne hk]
  · rcases hg : dictGet k₁ t with - | n
    · rw [lookupChain_cons_none (by rw [dictGet_dictSet_ne hk, hg]) c1 cr',
        lookupChain_cons_none hg c1 cr']
    · rcases n with ⟨s', c'⟩ | ch
      · rw [lookupChain_cons_file (by rw [dictGet_dictSet_ne hk]; exact hg) c1 cr',
          lookupChain_cons_file hg c1 cr']
      · rw [lookupChain_cons_dir (by rw [dictGet_dictSet_ne hk]; exact hg) c1 cr',
          lookupChain_cons_dir hg c1 cr']

theorem insertPath_char_step (s : String) (ch0 : Int × Int) (k r : PyStr) (rs : List PyStr)
    (t ch ch' : Children) (hwf : WFc t)
    (hgd : dictGet k t = some (Node.dir ch) ∨ (dictGet k t = none ∧ ch = Children.nil))
    (ihwf : WFc ch')
    (ihlook : lookupChain ch' (r :: rs) = some (Node.file s ch0))
    (ihchar : ∀ c, isFileAt ch' c ↔ (c = r :: rs ∨ (isFileAt ch c ∧ ¬ (r :: rs) <+: c)))
    (ihpres : ∀ c, ¬ c <+: (r :: rs) → ¬ (r :: rs) <+: c →
      lookupChain ch' c = lookupChain ch c) :
    WFc (dictSet k (Node.dir ch') t) ∧
      lookupChain (dictSet k (Node.dir ch') t) (k :: r :: rs) = some (Node.file s ch0) ∧
      (∀ c, isFileAt (dictSet k (Node.dir ch') t) c ↔
        (c = k :: r :: rs ∨ (isFileAt t c ∧ ¬ (k :: r :: rs) <+: c))) ∧
      (∀ c, ¬ c <+: (k :: r :: rs) → ¬ (k :: r :: rs) <+: c →
        lookupChain (dictSet k (Node.dir ch') t) c = lookupChain t c) := by
  have hlookt : ∀ c1 cr', lookupChain t (k :: c1 :: cr') = lookupChain ch (c1 :: cr') := by
    intro c1 cr'
    rcases hgd with hgd | ⟨hgd, rfl⟩
    · rw [lookupChain_cons_dir hgd c1 cr']
    · rw [lookupChain_cons_none hgd c1 cr', lookupChain_nil_tree]
  have hgetk : ∀ s' c', ¬ dictGet k t = some (Node.file s' c') := by
    intro s' c' h
    rcases hgd with hgd | ⟨hgd, -⟩
    · rw [hgd] at h
      simp at h
    · rw [hgd] at h
      cases h
  refine ⟨WFc_dictSet (show WFn (Node.dir ch') from ihwf) hwf, ?_, ?_, ?_⟩
  · rw [lookupChain_cons_dir (dictGet_dictSet_self k (Node.dir ch') t) r rs]
    exact ihlook
  · intro c
    rcases c with - | ⟨k₁, cr⟩
    · apply iff_of_false (isFileAt_nil_chain _)
      rintro (h | ⟨hf, -⟩)
      · simp at h
      · exact isFileAt_nil_chain t hf
    · by_cases hk : k₁ = k
      · subst hk
        rcases cr with - | ⟨c1, cr'⟩
        · apply iff_of_false
          · rintro ⟨s', c', hl⟩
            rw [lookupChain_single, dictGet_dictSet_self] at hl
            simp at hl
          · rintro (h | ⟨⟨s', c', hl⟩, -⟩)
            · simp at h
            · rw [lookupChain_single] at hl
              exact hgetk s' c' hl
        · have e1 : isFileAt (dictSet k₁ (Node.dir ch') t) (k₁ :: c1 :: cr') ↔
              isFileAt ch' (c1 :: cr') := by
            unfold isFileAt
            rw [lookupChain_cons_dir (dictGet_dictSet_self k₁ (Node.dir ch') t) c1 cr']
          have e2 : isFileAt t (k₁ :: c1 :: cr') ↔ isFileAt ch (c1 :: cr') := by
            unfold isFileAt
            rw [hlookt c1 cr']
          have e3 : ((k₁ :: c1 :: cr' : List PyStr) = k₁ :: r :: rs) ↔
              ((c1 :: cr' : List PyStr) = r :: rs) := by
            simp
          have e4 : ((k₁ :: r :: rs : List PyStr) <+: (k₁ :: c1 :: cr')) ↔
              ((r :: rs : List PyStr) <+: (c1 :: cr')) := by
            rw [List.cons_prefix_cons]
            simp
          rw [e1, ihchar (c1 :: cr'), e3, e4, e2]
      · have hpres := lookupChain_dictSet_ne hk (Node.dir ch') t cr
        constructor
        · rintro ⟨s', c', hl⟩
          rw [hpres] at hl
          refine Or.inr ⟨⟨s', c', hl⟩, ?_⟩
          intro hpre
          exact hk (List.cons_prefix_cons.mp hpre).1.symm
        · rintro (h | ⟨⟨s', c', hl⟩, -⟩)
          · injection h with h1 h2
            exact absurd h1 hk
          · exact ⟨s', c', by rw [hpres]; exact hl⟩
  · intro c hc1 hc2
    rcases c with - | ⟨k₁, cr⟩
    · rw [lookupChain_nil_chain, lookupChain_nil_chain]
    · by_cases hk : k₁ = k
      · subst hk
        rcases cr with - | ⟨c1, cr'⟩
        · exact absurd (List.cons_prefix_cons.mpr ⟨rfl, ⟨r :: rs, rfl⟩⟩) hc1
        · have hc1' : ¬ (c1 :: cr' : List PyStr) <+: (r :: rs) := by
            intro h
            exact hc1 (List.cons_prefix_cons.mpr ⟨rfl, h⟩)
          have hc2' : ¬ (r :: rs : List PyStr) <+: (c1 :: cr') := by
            intro h
            exact hc2 (List.cons_prefix_cons.mpr ⟨rfl, h⟩)
          rw [lookupChain_cons_dir (dictGet_dictSet_self k₁ (Node.dir ch') t) c1 cr',
            ihpres (c1 :: cr') hc1' hc2', hlookt c1 cr']
      · exact lookupChain_dictSet_ne hk (Node.dir ch') t cr

theorem insertPath_char (s : String) (ch0 : Int × Int) :
    ∀ (ps : List PyStr) (t t' : Children), ps ≠ [] →
      insertPath t ps (Node.file s ch0) = some t' → WFc t →
      WFc t' ∧ lookupChain t' ps = some (Node.file s ch0) ∧
      (∀ c, isFileAt t' c ↔ (c = ps ∨ (isFileAt t c ∧ ¬ ps <+: c))) ∧
      (∀ c, ¬ c <+: ps → ¬ ps <+: c → lookupChain t' c = lookupChain t c)
  | [], _, _, hne, _, _ => absurd rfl hne
  | [k], t, t', _, hins, hwf => by
    have h2 : some (dictSet k (Node.file s ch0) t) = some t' := hins
    cases Option.some.inj h2
    refine ⟨WFc_dictSet (show WFn (Node.file s ch0) from trivial) hwf, ?_, ?_, ?_⟩
    · rw [lookupChain_single, dictGet_dictSet_self]
    · intro c
      rcases c with - | ⟨k₁, cr⟩
      · apply iff_of_false (isFileAt_nil_chain _)
        rintro (h | ⟨hf, -⟩)
        · simp at h
        · exact isFileAt_nil_chain t hf
      · by_cases hk : k₁ = k
        · subst hk
          rcases cr with - | ⟨c1, cr'⟩
          · apply iff_of_true
            · exact ⟨s, ch0, by rw [lookupChain_single, dictGet_dictSet_self]⟩
            · exact Or.inl rfl
          · apply iff_of_false
            · rintro ⟨s', c', hl⟩
              rw [lookupChain_cons_file (dictGet_dictSet_self k₁ (Node.file s ch0) t) c1 cr']
                at hl
              cases hl
            · rintro (h | ⟨-, hpre⟩)
              · simp at h
              · exact hpre ⟨c1 :: cr', rfl⟩
        · have hpres := lookupChain_dictSet_ne hk (Node.file s ch0) t cr
          constructor
          · rintro ⟨s', c', hl⟩
            rw [hpres] at hl
            refine Or.inr ⟨⟨s', c', hl⟩, ?_⟩
            intro hpre
            exact hk (List.cons_prefix_cons.mp hpre).1.symm
          · rintro (h | ⟨⟨s', c', hl⟩, -⟩)
            · injection h with h1 h2
              exact absurd h1 hk
            · exact ⟨s', c', by rw [hpres]; exact hl⟩
    · intro c hc1 hc2
      rcases c with - | ⟨k₁, cr⟩
      · rw [lookupChain_nil_chain, lookupChain_nil_chain]
      · have hk : k₁ ≠ k := by
          intro hh
          subst hh
          rcases cr with - | ⟨c1, cr'⟩
          · exact hc1 ⟨[], by simp⟩
          · exact hc2 (List.cons_prefix_cons.mpr ⟨rfl, ⟨c1 :: cr', rfl⟩⟩)
        exact lookupChain_dictSet_ne hk (Node.file s ch0) t cr
  | k :: r :: rs, t, t', _, hins, hwf => by
    rcases hg : dictGet k t with - | n
    · rw [insertPath_cons_none hg r rs] at hins
      rcases hrec : insertPath Children.nil (r :: rs) (Node.file s ch0) with - | ch'
      · rw [hrec] at hins
        cases hins
      · rw [hrec] at hins
        have h2 : some (dictSet k (Node.dir ch') t) = some t' := hins
        cases Option.some.inj h2
        obtain ⟨ihwf, ihlook, ihchar, ihpres⟩ :=
          insertPath_char s ch0 (r :: rs) Children.nil ch' (by simp) hrec trivial
        exact insertPath_char_step s ch0 k r rs t Children.nil ch' hwf
          (Or.inr ⟨hg, rfl⟩) ihwf ihlook ihchar ihpres
    · rcases n with ⟨s', c'⟩ | ch
      · rw [insertPath_cons_file hg r rs] at hins
        cases hins
      · rw [insertPath_cons_dir hg r rs] at hins
        rcases hrec : insertPath ch (r :: rs) (Node.file s ch0) with - | ch'
        · rw [hrec] at hins
          cases hins
        · rw [hrec] at hins
          have h2 : some (dictSet k (Node.dir ch') t) = some t' := hins
          cases Option.some.inj h2
          obtain ⟨ihwf, ihlook, ihchar, ihpres⟩ :=
            insertPath_char s ch0 (r :: rs) ch ch' (by simp) hrec
              (show WFc ch from WFn_of_dictGet hwf hg)
          exact insertPath_char_step s ch0 k r rs t ch ch' hwf
            (Or.inl hg) ihwf ihlook ihchar ihpres

theorem insertPath_nil_some (leaf : Node) :
    ∀ ps : List PyStr, ∃ t', insertPath Children.nil ps leaf = some t'
  | [] => ⟨Children.nil, rfl⟩
  | [k] => ⟨dictSet k leaf Children.nil, rfl⟩
  | k :: r :: rs => by
    obtain ⟨t', h⟩ := insertPath_nil_some leaf (r :: rs)
    refine ⟨dictSet k (Node.dir t') Children.nil, ?_⟩
    rw [insertPath_cons_none (show dictGet k Children.nil = none from rfl) r rs, h]
    rfl

theorem insertPath_fails (leaf : Node) :
    ∀ (c ps : List PyStr) (t : Children), c <+: ps → c ≠ ps → c ≠ [] → isFileAt t c →
      insertPath t ps leaf = none
  | [], _, _, _, _, hc0, _ => absurd rfl hc0
  | k :: cr, ps, t, hpre, hne, _, hfile => by
    obtain ⟨ps', rfl⟩ : ∃ ps', ps = k :: ps' := by
      rcases hpre with ⟨rest, hrest⟩
      exact ⟨cr ++ rest, by rw [← hrest]; rfl⟩
    rw [List.cons_prefix_cons] at hpre
    have hpre' : cr <+: ps' := hpre.2
    have hne' : cr ≠ ps' := fun h => hne (by rw [h])
    rcases cr with - | ⟨c1, cr'⟩
    · rcases ps' with - | ⟨r, rs⟩
      · exact absurd rfl hne'
      · obtain ⟨s, ch, hl⟩ := hfile
        rw [lookupChain_single] at hl
        exact insertPath_cons_file hl r rs leaf
    · obtain ⟨r, rs, rfl⟩ : ∃ r rs, ps' = r :: rs := by
        rcases ps' with - | ⟨r, rs⟩
        · rcases hpre' with ⟨rest, hrest⟩
          simp at hrest
        · exact ⟨r, rs, rfl⟩
      obtain ⟨s, ch0, hl⟩ := hfile
      rcases hg : dictGet k t with - | n
      · rw [lookupChain_cons_none hg c1 cr'] at hl
        cases hl
      · rcases n with ⟨s', c'⟩ | ch
        · rw [lookupChain_cons_file hg c1 cr'] at hl
          cases hl
        · rw [insertPath_cons_dir hg r rs,
            insertPath_fails leaf (c1 :: cr') (r :: rs) ch hpre' hne' (by simp)
              ⟨s, ch0, by rw [← lookupChain_cons_dir hg c1 cr']; exact hl⟩]
          rfl

theorem buildList_cons_none {files1 files2 : List PyStr}
    {read1 read2 : PyStr → Option (List Byte)} {p : PyStr} {t : Children}
    (hins : insertPath t (pathParts p) (classifyLeaf files1 files2 read1 read2 p) = none)
    (rest : List PyStr) (recs : List CFRecord) :
    buildList files1 files2 read1 read2 (p :: rest) (t, recs) = none := by
  show (match insertPath t (pathParts p) (classifyLeaf files1 files2 read1 read2 p) with
    | none => none
    | some t' => buildList files1 files2 read1 read2 rest
        (t', recs ++ (classifyPath files1 files2 read1 read2 p).2)) = none
  rw [hins]

theorem buildList_cons_some {files1 files2 : List PyStr}
    {read1 read2 : PyStr → Option (List Byte)} {p : PyStr} {t t₁ : Children}
    (hins : insertPath t (pathParts p) (classifyLeaf files1 files2 read1 read2 p) = some t₁)
    (rest : List PyStr) (recs : List CFRecord) :
    buildList files1 files2 read1 read2 (p :: rest) (t, recs) =
      buildList files1 files2 read1 read2 rest
        (t₁, recs ++ (classifyPath files1 files2 read1 read2 p).2) := by
  show (match insertPath t (pathParts p) (classifyLeaf files1 files2 read1 read2 p) with
    | none => none
    | some t' => buildList files1 files2 read1 read2 rest
        (t', recs ++ (classifyPath files1 files2 read1 read2 p).2)) = _
  rw [hins]

theorem buildList_noconf (files1 files2 : List PyStr)
    (read1 read2 : PyStr → Option (List Byte)) :
    ∀ (todo : List PyStr) (t : Children) (recs : List CFRecord)
      (out : Children × List CFRecord),
      buildList files1 files2 read1 read2 todo (t, recs) = some out → WFc t →
      ∀ p', p' ∈ todo → ∀ c, c ≠ [] → c ≠ pathParts p' → c <+: pathParts p' →
        ¬ isFileAt t c
  | [], _, _, _, _, _, p', hp', _, _, _, _, _ => (List.not_mem_nil p') hp'
  | p :: rest, t, recs, out, h, hwf, p', hp', c, hc0, hcne, hcpre, hfile => by
    rcases hins : insertPath t (pathParts p) (classifyLeaf files1 files2 read1 read2 p)
      with - | t₁
    · rw [buildList_cons_none hins rest recs] at h
      cases h
    · rw [buildList_cons_some hins rest recs] at h
      rcases List.mem_cons.mp hp' with rfl | hp'rest
      · rw [insertPath_fails _ c (pathParts p') t hcpre hcne hc0 hfile] at hins
        cases hins
      · obtain ⟨hwf₁, hlook₁, hchar₁, -⟩ :=
          insertPath_char (classifyPath files1 files2 read1 read2 p).1.1
            (classifyPath files1 files2 read1 read2 p).1.2
            (pathParts p) t t₁ (pathParts_ne_nil p) hins hwf
        by_cases hpc : pathParts p <+: c
        · have hppne : pathParts p ≠ pathParts p' := by
            intro he
            exact hcne (List.IsPrefix.eq_of_length hcpre
              (Nat.le_antisymm hcpre.length_le (he ▸ hpc.length_le)))
          exact buildList_noconf files1 files2 read1 read2 rest t₁ _ out h hwf₁
            p' hp'rest (pathParts p) (pathParts_ne_nil p) hppne (hpc.trans hcpre)
            ⟨_, _, hlook₁⟩
        · exact buildList_noconf files1 files2 read1 read2 rest t₁ _ out h hwf₁
            p' hp'rest c hc0 hcne hcpre ((hchar₁ c).mpr (Or.inr ⟨hfile, hpc⟩))

theorem buildList_no_prefix_pair (files1 files2 : List PyStr)
    (read1 read2 : PyStr → Option (List Byte)) :
    ∀ (todo : List PyStr) (t : Children) (recs : List CFRecord)
      (out : Children × List CFRecord),
      buildList files1 files2 read1 read2 todo (t, recs) = some out → WFc t →
      List.Pairwise (fun a b => strLt a b = true) todo →
      ∀ p1, p1 ∈ todo → ∀ p2, p2 ∈ todo → pathParts p1 <+: pathParts p2 → p1 = p2
  | [], _, _, _, _, _, _, p1, hp1, _, _, _ => absurd hp1 (List.not_mem_nil p1)
  | p :: rest, t, recs, out, h, hwf, hsort, p1, hp1, p2, hp2, hpre => by
    rcases hins : insertPath t (pathParts p) (classifyLeaf files1 files2 read1 read2 p)
      with - | t₁
    · rw [buildList_cons_none hins rest recs] at h
      cases h
    · rw [buildList_cons_some hins rest recs] at h
      obtain ⟨hwf₁, hlook₁, hchar₁, -⟩ :=
        insertPath_char (classifyPath files1 files2 read1 read2 p).1.1
          (classifyPath files1 files2 read1 read2 p).1.2
          (pathParts p) t t₁ (pathParts_ne_nil p) hins hwf
      obtain ⟨hhead, htail⟩ := List.pairwise_cons.mp hsort
      rcases List.mem_cons.mp hp1 with rfl | hp1rest
      · rcases List.mem_cons.mp hp2 with rfl | hp2rest
        · rfl
        · by_cases he : pathParts p1 = pathParts p2
          · exact pathParts_injective he
          · exact absurd ⟨_, _, hlook₁⟩
              (buildList_noconf files1 files2 read1 read2 rest t₁ _ out h hwf₁
                p2 hp2rest (pathParts p1) (pathParts_ne_nil p1) he hpre)
      · rcases List.mem_cons.mp hp2 with rfl | hp2rest
        · have hlt : strLt p2 p1 = true := hhead p1 hp1rest
          have hne : p1 ≠ p2 := by
            intro he
            rw [he] at hlt
            rw [strLt_irrefl p2] at hlt
            cases hlt
          exact absurd (strLt_of_parts_before hpre hne) (fun hl => strLt_asymm _ _ hl hlt)
        · exact buildList_no_prefix_pair files1 files2 read1 read2 rest t₁ _ out h hwf₁
            htail p1 hp1rest p2 hp2rest hpre

theorem buildList_char (files1 files2 : List PyStr)
    (read1 read2 : PyStr → Option (List Byte)) :
    ∀ (todo : List PyStr) (t : Children) (recs : List CFRecord)
      (out : Children × List CFRecord),
      buildList files1 files2 read1 read2 todo (t, recs) = some out → WFc t →
      List.Pairwise (fun a b => strLt a b = true) todo →
      (∀ p, p ∈ todo → ∀ c, isFileAt t c → ¬ pathParts p <+: c) →
      WFc out.1 ∧
      (∀ c, isFileAt out.1 c ↔ (isFileAt t c ∨ ∃ p, p ∈ todo ∧ pathParts p = c)) ∧
      (∀ p, p ∈ todo → lookupChain out.1 (pathParts p) =
        some (classifyLeaf files1 files2 read1 read2 p)) ∧
      (∀ c, (∀ p, p ∈ todo → ¬ pathParts p <+: c ∧ ¬ c <+: pathParts p) →
        lookupChain out.1 c = lookupChain t c)
  | [], t, recs, out, h, hwf, _, _ => by
    have h2 : (t, recs) = out := Option.some.inj h
    cases h2
    refine ⟨hwf, ?_, ?_, ?_⟩
    · intro c
      constructor
      · exact Or.inl
      · rintro (hf | ⟨p, hp, -⟩)
        · exact hf
        · exact absurd hp (List.not_mem_nil p)
    · intro p hp
      exact absurd hp (List.not_mem_nil p)
    · intro c _
      rfl
  | p :: rest, t, recs, out, h, hwf, hsort, H => by
    rcases hins : insertPath t (pathParts p) (classifyLeaf files1 files2 read1 read2 p)
      with - | t₁
    · rw [buildList_cons_none hins rest recs] at h
      cases h
    · rw [buildList_cons_some hins rest recs] at h
      obtain ⟨hwf₁, hlook₁, hchar₁, hpres₁⟩ :=
        insertPath_char (classifyPath files1 files2 read1 read2 p).1.1
          (classifyPath files1 files2 read1 read2 p).1.2
          (pathParts p) t t₁ (pathParts_ne_nil p) hins hwf
      obtain ⟨hhead, htail⟩ := List.pairwise_cons.mp hsort
      have H₁ : ∀ p', p' ∈ rest → ∀ c, isFileAt t₁ c → ¬ pathParts p' <+: c := by
        intro p' hp' c hf hpp
        have hlt : strLt p p' = true := hhead p' hp'
        have hne : p' ≠ p := by
          intro hee
          rw [hee, strLt_irrefl p] at hlt
          cases hlt
        rcases (hchar₁ c).mp hf with rfl | ⟨hft, -⟩
        · exact strLt_asymm _ _ (strLt_of_parts_before hpp hne) hlt
        · exact H p' (List.mem_cons_of_mem p hp') c hft hpp
      obtain ⟨hwfO, hiffO, hlookO, hpresO⟩ :=
        buildList_char files1 files2 read1 read2 rest t₁
          (recs ++ (classifyPath files1 files2 read1 read2 p).2) out h hwf₁ htail H₁
      refine ⟨hwfO, ?_, ?_, ?_⟩
      · intro c
        constructor
        · intro hf
          rcases (hiffO c).mp hf with hf₁ | ⟨q, hq, he⟩
          · rcases (hchar₁ c).mp hf₁ with rfl | ⟨hft, -⟩
            · exact Or.inr ⟨p, List.mem_cons_self p rest, rfl⟩
            · exact Or.inl hft
          · exact Or.inr ⟨q, List.mem_cons_of_mem p hq, he⟩
        · rintro (hft | ⟨q, hq, he⟩)
          · exact (hiffO c).mpr (Or.inl ((hchar₁ c).mpr
              (Or.inr ⟨hft, H p (List.mem_cons_self p rest) c hft⟩)))
          · rcases List.mem_cons.mp hq with rfl | hqrest
            · exact (hiffO c).mpr (Or.inl ((hchar₁ c).mpr (Or.inl he.symm)))
            · exact (hiffO c).mpr (Or.inr ⟨q, hqrest, he⟩)
      · intro q hq
        rcases List.mem_cons.mp hq with rfl | hqrest
        · have hc : ∀ p', p' ∈ rest →
              ¬ pathParts p' <+: pathParts q ∧ ¬ pathParts q <+: pathParts p' := by
            intro p' hp'
            have hlt : strLt q p' = true := hhead p' hp'
            have hne : p' ≠ q := by
              intro hee
              rw [hee, strLt_irrefl q] at hlt
              cases hlt
            constructor
            · intro hpp
              exact strLt_asymm _ _ (strLt_of_parts_before hpp hne) hlt
            · intro hpp
              exact buildList_noconf files1 files2 read1 read2 rest t₁ _ out h hwf₁
                p' hp' (pathParts q) (pathParts_ne_nil q)
                (fun he => hne (pathParts_injective he).symm) hpp ⟨_, _, hlook₁⟩
          rw [hpresO (pathParts q) hc, hlook₁]
          rfl
        · exact hlookO q hqrest
      · intro c hc
        rw [hpresO c (fun p' hp' => hc p' (List.mem_cons_of_mem p hp')),
          hpres₁ c (hc p (List.mem_cons_self p rest)).2 (hc p (List.mem_cons_self p rest)).1]

theorem sortedUnion_pairwise_strLt (files1 files2 : List PyStr) :
    (insertionSort strLe ((files1 ++ files2).dedup)).Pairwise
      (fun a b => strLt a b = true) := by
  have hle := pairwise_insertionSort strLe strLe_total strLe_trans ((files1 ++ files2).dedup)
  have hnd : (insertionSort strLe ((files1 ++ files2).dedup)).Nodup :=
    ((perm_insertionSort strLe ((files1 ++ files2).dedup)).symm).nodup
      (List.nodup_dedup (files1 ++ files2))
  exact (hle.and hnd).imp (fun h => strLt_of_strLe_ne h.1 h.2)

theorem sortedUnion_mem (files1 files2 : List PyStr) (p : PyStr) :
    p ∈ insertionSort strLe ((files1 ++ files2).dedup) ↔ p ∈ files1 ∨ p ∈ files2 := by
  rw [(perm_insertionSort strLe ((files1 ++ files2).dedup)).mem_iff, List.mem_dedup,
    List.mem_append]

theorem build_directory_tree_char (files1 files2 : List PyStr)
    (read1 read2 : PyStr → Option (List Byte)) (out : Children × List CFRecord)
    (h : build_directory_tree files1 files2 read1 read2 = some out) :
    WFc out.1 ∧
    (∀ c, isFileAt out.1 c ↔ ∃ p, (p ∈ files1 ∨ p ∈ files2) ∧ pathParts p = c) ∧
    (∀ p, p ∈ files1 ∨ p ∈ files2 → lookupChain out.1 (pathParts p) =
      some (classifyLeaf files1 files2 read1 read2 p)) := by
  obtain ⟨hwf, hiff, hlook, -⟩ :=
    buildList_char files1 files2 read1 read2
      (insertionSort strLe ((files1 ++ files2).dedup)) Children.nil [] out h trivial
      (sortedUnion_pairwise_strLt files1 files2)
      (fun p _ c hf => absurd hf (isFileAt_nil_tree c))
  refine ⟨hwf, ?_, ?_⟩
  · intro c
    rw [hiff c]
    constructor
    · rintro (hf | ⟨p, hp, he⟩)
      · exact absurd hf (isFileAt_nil_tree c)
      · exact ⟨p, (sortedUnion_mem files1 files2 p).mp hp, he⟩
    · rintro ⟨p, hp, he⟩
      exact Or.inr ⟨p, (sortedUnion_mem files1 files2 p).mpr hp, he⟩
  · intro p hp
    exact hlook p ((sortedUnion_mem files1 files2 p).mpr hp)

theorem treeLeafChains_cons (k : PyStr) (n : Node) (rest : Children) :
    treeLeafChains (.cons k n rest) =
      (nodeLeafChains n).map (fun c => k :: c) ++ treeLeafChains rest := rfl

theorem treeLeafChains_ne_nil : ∀ (t : Children), ∀ c, c ∈ treeLeafChains t → c ≠ []
  | .nil, c, hc => absurd hc (List.not_mem_nil c)
  | .cons k n rest, c, hc => by
    rw [treeLeafChains_cons] at hc
    rcases List.mem_append.mp hc with hm | hm
    · obtain ⟨c', -, rfl⟩ := List.mem_map.mp hm
      simp
    · exact treeLeafChains_ne_nil rest c hm

theorem lookupChain_of_dictGet_none {t : Children} {k : PyStr} (h : dictGet k t = none) :
    ∀ cr, lookupChain t (k :: cr) = none
  | [] => by rw [lookupChain_single, h]
  | c1 :: cr' => lookupChain_cons_none h c1 cr'

theorem dictGet_cons (k₁ k : PyStr) (n : Node) (rest : Children) :
    dictGet k₁ (.cons k n rest) = if k = k₁ then some n else dictGet k₁ rest := rfl

theorem lookupChain_cons_tree_ne {k k₁ : PyStr} (hk : k ≠ k₁) (n : Node) (rest : Children) :
    ∀ cr, lookupChain (.cons k n rest) (k₁ :: cr) = lookupChain rest (k₁ :: cr) := by
  intro cr
  have hg : dictGet k₁ (Children.cons k n rest) = dictGet k₁ rest := by
    rw [dictGet_cons, if_neg hk]
  rcases cr with - | ⟨c1, cr'⟩
  · rw [lookupChain_single, lookupChain_single, hg]
  · rcases hgr : dictGet k₁ rest with - | m
    · rw [lookupChain_cons_none (hg.trans hgr) c1 cr', lookupChain_cons_none hgr c1 cr']
    · rcases m with ⟨s, c0⟩ | ch
      · rw [lookupChain_cons_file (hg.trans hgr) c1 cr', lookupChain_cons_file hgr c1 cr']
      · rw [lookupChain_cons_dir (hg.trans hgr) c1 cr', lookupChain_cons_dir hgr c1 cr']

theorem isFileAt_cons_of_dictGet {t : Children} {k : PyStr} {n : Node}
    (h : dictGet k t = some n) :
    ∀ cr, isFileAt t (k :: cr) ↔ nodeIsFileAt n cr := by
  intro cr
  rcases cr with - | ⟨c1, cr'⟩
  · rcases n with ⟨s, ch0⟩ | ch
    · apply iff_of_true
      · exact ⟨s, ch0, by rw [lookupChain_single, h]⟩
      · rfl
    · apply iff_of_false
      · rintro ⟨s', c', hl⟩
        rw [lookupChain_single, h] at hl
        simp at hl
      · exact isFileAt_nil_chain ch
  · rcases n with ⟨s, ch0⟩ | ch
    · apply iff_of_false
      · rintro ⟨s', c', hl⟩
        rw [lookupChain_cons_file h c1 cr'] at hl
        cases hl
      · intro hc
        cases hc
    · show isFileAt t (k :: c1 :: cr') ↔ isFileAt ch (c1 :: cr')
      unfold isFileAt
      rw [lookupChain_cons_dir h c1 cr']

mutual

theorem nodeLeafChains_char : ∀ (n : Node), WFn n → ∀ c,
    c ∈ nodeLeafChains n ↔ nodeIsFileAt n c
  | .file s ch0, _, c => by
    show c ∈ [([] : List PyStr)] ↔ c = []
    simp
  | .dir ch, hwf, c => treeLeafChains_char ch hwf c

theorem treeLeafChains_char : ∀ (t : Children), WFc t → ∀ c,
    c ∈ treeLeafChains t ↔ isFileAt t c
  | .nil, _, c => by
    apply iff_of_false
    · exact List.not_mem_nil c
    · exact isFileAt_nil_tree c
  | .cons k n rest, hwf, c => by
    have h' : keyAbsent k rest ∧ WFn n ∧ WFc rest := hwf
    have hmem : c ∈ treeLeafChains (.cons k n rest) ↔
        (∃ c', c' ∈ nodeLeafChains n ∧ k :: c' = c) ∨ c ∈ treeLeafChains rest := by
      rw [treeLeafChains_cons, List.mem_append, List.mem_map]
    rw [hmem]
    rcases c with - | ⟨k₁, cr⟩
    · apply iff_of_false
      · rintro (⟨c', -, hc'⟩ | hm)
        · cases hc'
        · exact treeLeafChains_ne_nil rest [] hm rfl
      · exact isFileAt_nil_chain _
    · by_cases hk : k = k₁
      · subst hk
        have hg : dictGet k (Children.cons k n rest) = some n := by
          rw [dictGet_cons, if_pos rfl]
        rw [isFileAt_cons_of_dictGet hg cr]
        constructor
        · rintro (⟨c', hc', he⟩ | hm)
          · have he2 : c' = cr := (List.cons.injEq k c' k cr ▸ he).2
            rw [he2] at hc'
            exact (nodeLeafChains_char n h'.2.1 cr).mp hc'
          · exfalso
            obtain ⟨s', c', hl⟩ := (treeLeafChains_char rest h'.2.2 (k :: cr)).mp hm
            rw [lookupChain_of_dictGet_none (keyAbsent_dictGet h'.1) cr] at hl
            cases hl
        · intro hn
          exact Or.inl ⟨cr, (nodeLeafChains_char n h'.2.1 cr).mpr hn, rfl⟩
      · have hlk := lookupChain_cons_tree_ne hk n rest cr
        constructor
        · rintro (⟨c', -, he⟩ | hm)
          · exact absurd (List.cons.injEq k c' k₁ cr ▸ he).1 hk
          · obtain ⟨s', c', hl⟩ := (treeLeafChains_char rest h'.2.2 (k₁ :: cr)).mp hm
            exact ⟨s', c', by rw [hlk]; exact hl⟩
        · rintro ⟨s', c', hl⟩
          rw [hlk] at hl
          exact Or.inr ((treeLeafChains_char rest h'.2.2 (k₁ :: cr)).mpr ⟨s', c', hl⟩)

end

mutual

theorem nodeLeafChains_nodup : ∀ (n : Node), WFn n → (nodeLeafChains n).Nodup
  | .file s ch0, _ => by
    show ([([] : List PyStr)]).Nodup
    simp
  | .dir ch, hwf => treeLeafChains_nodup ch hwf

theorem treeLeafChains_nodup : ∀ (t : Children), WFc t → (treeLeafChains t).Nodup
  | .nil, _ => List.Pairwise.nil
  | .cons k n rest, hwf => by
    have h' : keyAbsent k rest ∧ WFn n ∧ WFc rest := hwf
    rw [treeLeafChains_cons, List.nodup_append]
    refine ⟨?_, treeLeafChains_nodup rest h'.2.2, ?_⟩
    · exact (nodeLeafChains_nodup n h'.2.1).map
        (fun a b hab => (List.cons.injEq k a k b ▸ hab).2)
    · intro c hc1 hc2
      obtain ⟨c', -, rfl⟩ := List.mem_map.mp hc1
      obtain ⟨s', cx, hl⟩ := (treeLeafChains_char rest h'.2.2 (k :: c')).mp hc2
      rw [lookupChain_of_dictGet_none (keyAbsent_dictGet h'.1) c'] at hl
      cases hl

end

theorem classifyPath_added {files1 files2 : List PyStr}
    {read1 read2 : PyStr → Option (List Byte)} {p : PyStr}
    (h2 : p ∈ files2) (h1 : p ∉ files1) :
    classifyPath files1 files2 read1 read2 p = ((statusAdded, (0, 0)), []) := by
  unfold classifyPath
  rw [if_pos ⟨h2, h1⟩]

theorem classifyPath_removed {files1 files2 : List PyStr}
    {read1 read2 : PyStr → Option (List Byte)} {p : PyStr}
    (h1 : p ∈ files1) (h2 : p ∉ files2) :
    classifyPath files1 files2 read1 read2 p = ((statusRemoved, (0, 0)), []) := by
  unfold classifyPath
  rw [if_neg (fun hc => h2 hc.1), if_pos ⟨h1, h2⟩]

/-- **C3.** For every pair of input path listings, whenever
`build_directory_tree` returns a tree, the leaf chains of that tree are
exactly the split paths of the union of the two listings: the chains
carry no duplicates, and a chain is a leaf chain iff it is the
segment-split of some path of either listing. -/
theorem c3_leaf_paths_are_union (files1 files2 : List PyStr)
    (read1 read2 : PyStr → Option (List Byte)) (t : Children) (recs : List CFRecord)
    (h : build_directory_tree files1 files2 read1 read2 = some (t, recs)) :
    (treeLeafChains t).Nodup ∧
    (∀ c, c ∈ treeLeafChains t ↔ ∃ p, (p ∈ files1 ∨ p ∈ files2) ∧ pathParts p = c) := by
  obtain ⟨hwf, hiff, -⟩ := build_directory_tree_char files1 files2 read1 read2 (t, recs) h
  exact ⟨treeLeafChains_nodup t hwf,
    fun c => (treeLeafChains_char t hwf c).trans (hiff c)⟩

theorem c3_leaf_paths_are_union_witness :
    build_directory_tree [['a']] [['b']] (fun _ => none) (fun _ => none) =
      some (Children.cons ['a'] (Node.file statusRemoved (0, 0))
        (Children.cons ['b'] (Node.file statusAdded (0, 0)) Children.nil), []) ∧
    ((treeLeafChains (Children.cons ['a'] (Node.file statusRemoved (0, 0))
        (Children.cons ['b'] (Node.file statusAdded (0, 0)) Children.nil))).Nodup ∧
      (∀ c, c ∈ treeLeafChains (Children.cons ['a'] (Node.file statusRemoved (0, 0))
          (Children.cons ['b'] (Node.file statusAdded (0, 0)) Children.nil)) ↔
        ∃ p, (p ∈ [['a']] ∨ p ∈ [['b']]) ∧ pathParts p = c)) :=
  ⟨rfl, c3_leaf_paths_are_union [['a']] [['b']] (fun _ => none) (fun _ => none) _ _ rfl⟩

/-- **C8.** For every path present in exactly one listing, the built
tree's leaf is `added` (present only in the new listing) or `removed`
(present only in the old listing) with magnitude `(0, 0)`, and no
content diff is performed for it: its classification is the same under
any content-reading functions whatsoever. -/
theorem c8_one_sided_added_removed (files1 files2 : List PyStr)
    (read1 read2 : PyStr → Option (List Byte)) (t : Children) (recs : List CFRecord)
    (p : PyStr)
    (h : build_directory_tree files1 files2 read1 read2 = some (t, recs)) :
    (p ∈ files2 → p ∉ files1 →
      lookupChain t (pathParts p) = some (Node.file statusAdded (0, 0))) ∧
    (p ∈ files1 → p ∉ files2 →
      lookupChain t (pathParts p) = some (Node.file statusRemoved (0, 0))) ∧
    ((p ∈ files1 ∧ p ∉ files2) ∨ (p ∈ files2 ∧ p ∉ files1) →
      ∀ read1' read2' : PyStr → Option (List Byte),
        classifyPath files1 files2 read1 read2 p =
          classifyPath files1 files2 read1' read2' p) := by
  obtain ⟨-, -, hlook⟩ := build_directory_tree_char files1 files2 read1 read2 (t, recs) h
  refine ⟨?_, ?_, ?_⟩
  · intro h2 h1
    rw [hlook p (Or.inr h2)]
    unfold classifyLeaf
    rw [classifyPath_added h2 h1]
  · intro h1 h2
    rw [hlook p (Or.inl h1)]
    unfold classifyLeaf
    rw [classifyPath_removed h1 h2]
  · rintro (⟨h1, h2⟩ | ⟨h2, h1⟩) read1' read2'
    · rw [classifyPath_removed h1 h2, classifyPath_removed h1 h2]
    · rw [classifyPath_added h2 h1, classifyPath_added h2 h1]

theorem c8_one_sided_added_removed_witness :
    build_directory_tree [['a']] [['b']] (fun _ => some [0]) (fun _ => some [0]) =
      some (Children.cons ['a'] (Node.file statusRemoved (0, 0))
        (Children.cons ['b'] (Node.file statusAdded (0, 0)) Children.nil), []) ∧
    lookupChain (Children.cons ['a'] (Node.file statusRemoved (0, 0))
        (Children.cons ['b'] (Node.file statusAdded (0, 0)) Children.nil))
      (pathParts ['b']) = some (Node.file statusAdded (0, 0)) :=
  ⟨rfl, (c8_one_sided_added_removed [['a']] [['b']] (fun _ => some [0]) (fun _ => some [0])
      _ _ ['b'] rfl).1 (by decide) (by decide)⟩

/-- **C10.** If the union of the two listings contains two distinct
paths whose segment splits are prefix-related (one names a file that
the other must traverse as a directory), `build_directory_tree` raises
(the leaf written for the shorter path has no children mapping, so the
later descent fails): the model returns `none`, for any reading
functions — tree construction is not total. -/
theorem c10_prefix_conflict_raises (files1 files2 : List PyStr)
    (read1 read2 : PyStr → Option (List Byte)) (p1 p2 : PyStr)
    (h1 : p1 ∈ files1 ∨ p1 ∈ files2) (h2 : p2 ∈ files1 ∨ p2 ∈ files2)
    (hpre : pathParts p1 <+: pathParts p2) (hne : p1 ≠ p2) :
    build_directory_tree files1 files2 read1 read2 = none := by
  rcases hb : build_directory_tree files1 files2 read1 read2 with - | out
  · rfl
  · exact absurd
      (buildList_no_prefix_pair files1 files2 read1 read2
        (insertionSort strLe ((files1 ++ files2).dedup)) Children.nil [] out hb
        trivial (sortedUnion_pairwise_strLt files1 files2)
        p1 ((sortedUnion_mem files1 files2 p1).mpr h1)
        p2 ((sortedUnion_mem files1 files2 p2).mpr h2) hpre)
      hne

theorem c10_prefix_conflict_raises_witness :
    (pathParts ['a'] <+: pathParts ['a', '/', 'b']) ∧ (['a'] : PyStr) ≠ ['a', '/', 'b'] ∧
    build_directory_tree [['a']] [['a', '/', 'b']] (fun _ => none) (fun _ => none) = none :=
  ⟨by decide, by decide,
    c10_prefix_conflict_raises [['a']] [['a', '/', 'b']] (fun _ => none) (fun _ => none)
      ['a'] ['a', '/', 'b'] (Or.inl (by decide)) (Or.inr (by decide))
      (by decide) (by decide)⟩

/-- **C2.** Refuted: a file pair whose content cannot be read does not
get a distinct per-file error status.  `run_xxd_diff` catches the
failure and returns the string `Error comparing files`, which
`parse_diffstat` turns into `(0, 0)`, so the leaf is written as
`unchanged` with magnitude `(0, 0)` — byte-for-byte the same leaf as a
genuinely identical pair — though the failure indeed does not abort the
remaining comparisons (the readable second file is still diffed). -/
theorem c2_unreadable_file_silently_unchanged :
    compareFile none (some [0]) = (statusUnchanged, (0, 0)) ∧
    compareFile none (some [0]) = compareFile (some [0]) (some [0]) ∧
    build_directory_tree [['a'], ['b']] [['a'], ['b']]
      (fun p => if p = ['a'] then none else some [1]) (fun _ => some [2]) =
      some (Children.cons ['a'] (Node.file statusUnchanged (0, 0))
        (Children.cons ['b'] (Node.file statusChanged (1, 0)) Children.nil),
        [⟨['b'], 1, 0, 1⟩]) :=
  ⟨rfl, rfl, rfl⟩

theorem recGe_total (a b : CFRecord) : recGe a b = true ∨ recGe b a = true := by
  simp only [recGe, decide_eq_true_eq]
  omega

theorem recGe_trans (a b c : CFRecord) (h1 : recGe a b = true) (h2 : recGe b c = true) :
    recGe a c = true := by
  simp only [recGe, decide_eq_true_eq] at h1 h2 ⊢
  omega

theorem filter_insSorted_total (a : CFRecord) (k : Int) :
    ∀ l : List CFRecord,
      (insSorted recGe a l).filter (fun r => decide (r.total_changes = k)) =
        if a.total_changes = k then
          a :: l.filter (fun r => decide (r.total_changes = k))
        else l.filter (fun r => decide (r.total_changes = k))
  | [] => by
    show ([a]).filter _ = _
    by_cases h : a.total_changes = k
    · rw [if_pos h]
      simp [List.filter, h]
    · rw [if_neg h]
      simp [List.filter, h]
  | x :: xs => by
    show (if recGe a x then a :: x :: xs else x :: insSorted recGe a xs).filter _ = _
    by_cases hax : recGe a x = true
    · rw [if_pos hax]
      by_cases h : a.total_changes = k
      · rw [if_pos h]
        simp [List.filter_cons, h]
      · rw [if_neg h]
        simp [List.filter_cons, h]
    · rw [if_neg hax]
      rw [List.filter_cons, filter_insSorted_total a k xs]
      by_cases h : a.total_changes = k
      · rw [if_pos h, if_pos h]
        have hxk : ¬ x.total_changes = k := by
          intro hxx
          apply hax
          simp only [recGe, decide_eq_true_eq]
          omega
        simp [List.filter_cons, hxk]
      · rw [if_neg h, if_neg h, List.filter_cons]

theorem filter_insertionSort_total (k : Int) :
    ∀ l : List CFRecord,
      (insertionSort recGe l).filter (fun r => decide (r.total_changes = k)) =
        l.filter (fun r => decide (r.total_changes = k))
  | [] => rfl
  | a :: l => by
    show (insSorted recGe a (insertionSort recGe l)).filter _ = _
    rw [filter_insSorted_total a k (insertionSort recGe l), filter_insertionSort_total k l,
      List.filter_cons]
    by_cases h : a.total_changes = k
    · rw [if_pos h]
      simp [h]
    · rw [if_neg h]
      simp [h]

theorem exceedsThreshold_iff_sqrt (mean variance mult : ℚ) (total : Int)
    (hvar : 0 ≤ variance) (hmult : 0 ≤ mult) :
    exceedsThreshold mean variance mult total = true ↔
      (mean : ℝ) + (mult : ℝ) * Real.sqrt (variance : ℝ) < (total : ℝ) := by
  have hs : Real.sqrt ((variance : ℚ) : ℝ) ^ 2 = ((variance : ℚ) : ℝ) :=
    Real.sq_sqrt (by exact_mod_cast hvar)
  have hs0 : 0 ≤ Real.sqrt ((variance : ℚ) : ℝ) := Real.sqrt_nonneg _
  have hm0 : (0 : ℝ) ≤ (mult : ℝ) := by exact_mod_cast hmult
  rw [exceedsThreshold, Bool.and_eq_true, decide_eq_true_eq, decide_eq_true_eq]
  constructor
  · rintro ⟨h1, h2⟩
    have h1' : (mean : ℝ) < (total : ℝ) := by exact_mod_cast h1
    have h2' : (mult : ℝ) ^ 2 * (variance : ℝ) < ((total : ℝ) - (mean : ℝ)) ^ 2 := by
      exact_mod_cast h2
    have hq : ((mult : ℝ) * Real.sqrt (variance : ℝ)) ^ 2 <
        ((total : ℝ) - (mean : ℝ)) ^ 2 := by
      rw [mul_pow, hs]
      exact h2'
    have hlt : (mult : ℝ) * Real.sqrt (variance : ℝ) < (total : ℝ) - (mean : ℝ) :=
      lt_of_pow_lt_pow_left₀ 2 (by linarith) hq
    linarith
  · intro h
    have hms : 0 ≤ (mult : ℝ) * Real.sqrt (variance : ℝ) := mul_nonneg hm0 hs0
    have h1' : (mean : ℝ) < (total : ℝ) := by linarith
    have hlt : (mult : ℝ) * Real.sqrt (variance : ℝ) < (total : ℝ) - (mean : ℝ) := by
      linarith
    have hq := pow_lt_pow_left₀ hlt hms (two_ne_zero)
    rw [mul_pow, hs] at hq
    refine ⟨by exact_mod_cast h1', ?_⟩
    have hq' : (mult : ℝ) ^ 2 * (variance : ℝ) < ((total : ℝ) - (mean : ℝ)) ^ 2 := hq
    push_cast at hq' ⊢
    exact_mod_cast hq'

theorem sum_map_const_totals (t0 : ℚ) :
    ∀ data : List CFRecord, (∀ r, r ∈ data → (r.total_changes : ℚ) = t0) →
      (data.map (fun r => (r.total_changes : ℚ))).sum = (data.length : ℚ) * t0
  | [], _ => by simp
  | d :: rest, h => by
    rw [List.map_cons, List.sum_cons,
      sum_map_const_totals t0 rest (fun r hr => h r (List.mem_cons_of_mem d hr)),
      h d (List.mem_cons_self d rest), List.length_cons]
    push_cast
    ring

theorem identify_singleton (r : CFRecord) (mult : ℚ) :
    identify_significant_changes [r] mult = some ([], (r.total_changes : ℚ), 0) := by
  have hM : (List.map (fun x => (x.total_changes : ℚ)) [r]).sum /
      ((List.length [r] : ℕ) : ℚ) = (r.total_changes : ℚ) := by
    simp
  have hfalse : exceedsThreshold
      ((List.map (fun x => (x.total_changes : ℚ)) [r]).sum / ((List.length [r] : ℕ) : ℚ))
      (if 1 < List.length [r] then
        (((List.map (fun x => (x.total_changes : ℚ)) [r]).map
          (fun t => (t - (List.map (fun x => (x.total_changes : ℚ)) [r]).sum /
            ((List.length [r] : ℕ) : ℚ)) ^ 2)).sum / (((List.length [r] : ℕ) : ℚ) - 1))
      else 0) mult r.total_changes = false := by
    rw [exceedsThreshold]
    rw [Bool.and_eq_false_iff]
    left
    rw [decide_eq_false_iff_not]
    rw [hM]
    exact lt_irrefl _
  show some (insertionSort recGe (List.filter (fun x => exceedsThreshold
      ((List.map (fun x => (x.total_changes : ℚ)) [r]).sum / ((List.length [r] : ℕ) : ℚ))
      (if 1 < List.length [r] then
        (((List.map (fun x => (x.total_changes : ℚ)) [r]).map
          (fun t => (t - (List.map (fun x => (x.total_changes : ℚ)) [r]).sum /
            ((List.length [r] : ℕ) : ℚ)) ^ 2)).sum / (((List.length [r] : ℕ) : ℚ) - 1))
      else 0) mult x.total_changes) [r]),
      (List.map (fun x => (x.total_changes : ℚ)) [r]).sum / ((List.length [r] : ℕ) : ℚ),
      if 1 < List.length [r] then
        (((List.map (fun x => (x.total_changes : ℚ)) [r]).map
          (fun t => (t - (List.map (fun x => (x.total_changes : ℚ)) [r]).sum /
            ((List.length [r] : ℕ) : ℚ)) ^ 2)).sum / (((List.length [r] : ℕ) : ℚ) - 1))
      else 0) = some ([], (r.total_changes : ℚ), 0)
  rw [List.filter_cons, hfalse]
  rw [if_neg (by simp)]
  rw [hM]
  rw [if_neg (by simp)]
  rfl

theorem identify_cons (d : CFRecord) (rest : List CFRecord) (mult : ℚ) :
    identify_significant_changes (d :: rest) mult =
      some (insertionSort recGe ((d :: rest).filter
        (fun x => exceedsThreshold (meanOf (d :: rest)) (varOf (d :: rest)) mult
          x.total_changes)),
        meanOf (d :: rest), varOf (d :: rest)) := rfl

theorem varOf_nonneg (data : List CFRecord) (hn : 2 ≤ data.length) : 0 ≤ varOf data := by
  have hlenQ : (2 : ℚ) ≤ (data.length : ℚ) := by exact_mod_cast hn
  unfold varOf
  rw [if_pos (Nat.lt_of_lt_of_le Nat.one_lt_two hn)]
  apply div_nonneg
  · apply List.sum_nonneg
    intro x hx
    obtain ⟨t, -, rfl⟩ := List.mem_map.mp hx
    exact sq_nonneg _
  · linarith

/-- **C5.** For n ≥ 2 records and any non-negative multiplier, the
analyzer's mean is the arithmetic mean of the totals, its variance is
the sample variance (n−1 denominator), the outliers are exactly the
records whose total strictly exceeds mean + multiplier·√variance over
the reals, sorted descending by total, with ties kept in input order
(the filtered sublist at any fixed total is returned unchanged), and
when all totals are equal the outlier list is empty. -/
theorem c5_significance_analyzer (data : List CFRecord) (mult : ℚ)
    (outs : List CFRecord) (mean variance : ℚ)
    (hn : 2 ≤ data.length) (hmult : 0 ≤ mult)
    (h : identify_significant_changes data mult = some (outs, mean, variance)) :
    mean = (data.map (fun r => (r.total_changes : ℚ))).sum / (data.length : ℚ) ∧
    variance = (data.map (fun r => ((r.total_changes : ℚ) - mean) ^ 2)).sum /
      ((data.length : ℚ) - 1) ∧
    (∀ r, r ∈ outs ↔ r ∈ data ∧
      (mean : ℝ) + (mult : ℝ) * Real.sqrt (variance : ℝ) < (r.total_changes : ℝ)) ∧
    outs.Pairwise (fun a b => b.total_changes ≤ a.total_changes) ∧
    (∀ k : Int, outs.filter (fun r => decide (r.total_changes = k)) =
      (data.filter (fun r => exceedsThreshold mean variance mult r.total_changes)).filter
        (fun r => decide (r.total_changes = k))) ∧
    ((∀ r, r ∈ data → ∀ r', r' ∈ data → r.total_changes = r'.total_changes) →
      outs = []) := by
  rcases data with - | ⟨d, rest⟩
  · simp at hn
  · rw [identify_cons d rest mult] at h
    have h2 := Option.some.inj h
    rw [Prod.ext_iff, Prod.ext_iff] at h2
    obtain ⟨hO, hM, hV⟩ := h2
    have hO' : insertionSort recGe ((d :: rest).filter
        (fun x => exceedsThreshold (meanOf (d :: rest)) (varOf (d :: rest)) mult
          x.total_changes)) = outs := hO
    have hM' : meanOf (d :: rest) = mean := hM
    have hV' : varOf (d :: rest) = variance := hV
    subst hM' hV' hO'
    have hvar0 : 0 ≤ varOf (d :: rest) := varOf_nonneg (d :: rest) hn
    refine ⟨rfl, ?_, ?_, ?_, ?_, ?_⟩
    · unfold varOf
      rw [if_pos (Nat.lt_of_lt_of_le Nat.one_lt_two hn), List.map_map]
      rfl
    · intro r
      rw [(perm_insertionSort recGe _).mem_iff, List.mem_filter,
        exceedsThreshold_iff_sqrt _ _ _ _ hvar0 hmult]
    · exact (pairwise_insertionSort recGe recGe_total recGe_trans _).imp
        (fun hxy => by simpa [recGe] using hxy)
    · intro k
      exact filter_insertionSort_total k _
    · intro hall
      have ht0 : ∀ r, r ∈ (d :: rest) → (r.total_changes : ℚ) = (d.total_changes : ℚ) := by
        intro r hr
        exact_mod_cast congrArg (fun z : Int => (z : ℚ))
          (hall r hr d (List.mem_cons_self d rest))
      have hmean : meanOf (d :: rest) = (d.total_changes : ℚ) := by
        unfold meanOf
        rw [sum_map_const_totals (d.total_changes : ℚ) (d :: rest) ht0]
        exact mul_div_cancel_left₀ _ (by positivity)
      have hfilter : (d :: rest).filter
          (fun x => exceedsThreshold (meanOf (d :: rest)) (varOf (d :: rest)) mult
            x.total_changes) = [] := by
        rw [List.filter_eq_nil_iff]
        intro r hr hex
        rw [exceedsThreshold, Bool.and_eq_true, decide_eq_true_eq, decide_eq_true_eq] at hex
        rw [hmean, ← ht0 r hr] at hex
        exact lt_irrefl _ hex.1
      rw [hfilter]
      rfl

theorem c5_significance_analyzer_witness :
    2 ≤ ([⟨['a'], 1, 1, 2⟩, ⟨['b'], 1, 2, 3⟩, ⟨['c'], 2, 0, 2⟩, ⟨['d'], 0, 3, 3⟩,
      ⟨['e'], 25, 25, 50⟩] : List CFRecord).length ∧
    (0 : ℚ) ≤ 1 ∧
    identify_significant_changes
      [⟨['a'], 1, 1, 2⟩, ⟨['b'], 1, 2, 3⟩, ⟨['c'], 2, 0, 2⟩, ⟨['d'], 0, 3, 3⟩,
        ⟨['e'], 25, 25, 50⟩] 1 =
      some ([⟨['e'], 25, 25, 50⟩], 12, 903 / 2) ∧
    ([(⟨['e'], 25, 25, 50⟩ : CFRecord)]).Pairwise
      (fun a b => b.total_changes ≤ a.total_changes) := by
  have hmean : meanOf [⟨['a'], 1, 1, 2⟩, ⟨['b'], 1, 2, 3⟩, ⟨['c'], 2, 0, 2⟩,
      ⟨['d'], 0, 3, 3⟩, ⟨['e'], 25, 25, 50⟩] = 12 := by
    norm_num [meanOf]
  have hvar : varOf [⟨['a'], 1, 1, 2⟩, ⟨['b'], 1, 2, 3⟩, ⟨['c'], 2, 0, 2⟩,
      ⟨['d'], 0, 3, 3⟩, ⟨['e'], 25, 25, 50⟩] = 903 / 2 := by
    norm_num [varOf, meanOf]
  have e2 : exceedsThreshold 12 (903 / 2) 1 2 = false := by
    rw [exceedsThreshold, Bool.and_eq_false_iff]
    left
    rw [decide_eq_false_iff_not]
    norm_num
  have e3 : exceedsThreshold 12 (903 / 2) 1 3 = false := by
    rw [exceedsThreshold, Bool.and_eq_false_iff]
    left
    rw [decide_eq_false_iff_not]
    norm_num
  have e50 : exceedsThreshold 12 (903 / 2) 1 50 = true := by
    rw [exceedsThreshold, Bool.and_eq_true, decide_eq_true_eq, decide_eq_true_eq]
    constructor <;> norm_num
  have hid : identify_significant_changes
      [⟨['a'], 1, 1, 2⟩, ⟨['b'], 1, 2, 3⟩, ⟨['c'], 2, 0, 2⟩, ⟨['d'], 0, 3, 3⟩,
        ⟨['e'], 25, 25, 50⟩] 1 =
      some ([⟨['e'], 25, 25, 50⟩], 12, 903 / 2) := by
    rw [identify_cons, hmean, hvar]
    simp [List.filter_cons, e2, e3, e50, insertionSort, insSorted]
  exact ⟨by decide, by norm_num, hid,
    (c5_significance_analyzer _ 1 _ 12 (903 / 2) (by decide) (by norm_num) hid).2.2.2.1⟩

/-- **C9.** With at most one changed-file record the analyzer flags
nothing, for any multiplier: on empty input it returns no report at
all (the bare `return []`, modelled `none`), and on a single record
the standard deviation is taken as 0, so the threshold collapses to
the mean — which equals the single total — and the outlier list is
empty. -/
theorem c9_small_input_no_outliers (data : List CFRecord) (mult : ℚ)
    (hn : data.length ≤ 1) :
    (data = [] ∧ identify_significant_changes data mult = none) ∨
    (∃ r, data = [r] ∧ identify_significant_changes data mult =
      some ([], (r.total_changes : ℚ), 0)) := by
  rcases data with - | ⟨r, rest⟩
  · exact Or.inl ⟨rfl, rfl⟩
  · rcases rest with - | ⟨r2, rest2⟩
    · exact Or.inr ⟨r, rfl, identify_singleton r mult⟩
    · exfalso
      simp at hn

theorem c9_small_input_no_outliers_witness :
    ([(⟨['a'], 1, 0, 1⟩ : CFRecord)]).length ≤ 1 ∧
    (([(⟨['a'], 1, 0, 1⟩ : CFRecord)] = [] ∧
      identify_significant_changes [(⟨['a'], 1, 0, 1⟩ : CFRecord)] 2 = none) ∨
    (∃ r, [(⟨['a'], 1, 0, 1⟩ : CFRecord)] = [r] ∧
      identify_significant_changes [(⟨['a'], 1, 0, 1⟩ : CFRecord)] 2 =
        some ([], (r.total_changes : ℚ), 0))) :=
  ⟨by decide, c9_small_input_no_outliers [⟨['a'], 1, 0, 1⟩] 2 (by decide)⟩
